import Mathlib

/-!
# A verification model of `main.js`

The page script is embedded function by function.  Conventions of the embedding:

* a JavaScript string is the list of its UTF-16 code units (`JSString`), so that
  `.length` and `.substring` count exactly what the script counts;
* a property that may be absent (`undefined` / `null`) is an `Option`;
* a JavaScript number that can be `Infinity`, `-Infinity` or `NaN` is a `Num`; the
  integers read from the JSON documents are `Int`;
* the host function `Date.parse` is a parameter `parse : JSString → Option Int`
  (milliseconds since the epoch, `none` for `NaN`); `new Date(s)` has the same time value;
* the DOM is explicit state: each function that writes to the page takes the part of
  the page it touches and returns the new one;
* a network request is a parameter holding its outcome; a callback handed to
  `setTimeout` is kept in the page state until it runs; pointer events and the random
  tint of the wall blocks are not modelled.
-/

namespace MainJs

/-! ## Strings -/

/-- JavaScript string value: the sequence of its UTF-16 code units. -/
abbrev JSString := List Nat

/-- The code units of a string literal of the script (surrogate pairs above the BMP). -/
def utf16 (s : String) : JSString :=
  s.toList.flatMap fun c =>
    if c.toNat < 65536 then [c.toNat]
    else [55296 + (c.toNat - 65536) / 1024, 56320 + (c.toNat - 65536) % 1024]

/-- Truthiness of an optional string: absent and the empty string are falsy. -/
def truthy : Option JSString → Bool
  | some (_ :: _) => true
  | _ => false

/-- String-valued `a || b` with a literal right operand. -/
def orElse (a : Option JSString) (b : JSString) : JSString :=
  match a with
  | some (u :: s) => u :: s
  | _ => b

/-- Method `substring(start, end)` of a string: both indices are clamped to
`[0, length]` (an omitted `end` is the length) and swapped when `start > end`. -/
def substring (s : JSString) (start : Int) (stop : Option Int) : JSString :=
  let a := min start.toNat s.length
  let b := match stop with
    | none => s.length
    | some e => min e.toNat s.length
  (s.drop (min a b)).take (max a b - min a b)

/-- White space and line terminators of ECMAScript, the code units `trim` strips. -/
def isWhiteSpace (u : Nat) : Bool :=
  u == 9 || u == 10 || u == 11 || u == 12 || u == 13 || u == 32 || u == 160 ||
  u == 5760 || (8192 ≤ u && u ≤ 8202) || u == 8232 || u == 8233 || u == 8239 ||
  u == 8287 || u == 12288 || u == 65279

/-- Method `trim()` of a string. -/
def trim (s : JSString) : JSString :=
  ((s.dropWhile isWhiteSpace).reverse.dropWhile isWhiteSpace).reverse

/-! ## Numbers and sorting -/

/-- JavaScript number restricted to what the script computes with: an integer-valued
double, one of the two infinities, or `NaN`. -/
inductive Num where
  | nan
  | negInf
  | fin (n : Int)
  | posInf
  deriving DecidableEq, Repr

/-- Exponent of the spacing of the doubles at the magnitude `m`: the least `k`, counted up
from the given one in at most the given number of steps, with `m < 2^(53+k)`. -/
def spacingExp (m : Nat) : Nat → Nat → Nat
  | 0, k => k
  | fuel + 1, k => if m < 2 ^ (53 + k) then k else spacingExp m fuel (k + 1)

/-- A magnitude above `2^53` rounded to 53 significant bits, ties going to the even
significand. -/
def roundMagnitude (m : Nat) : Nat :=
  let k := spacingExp m 971 1
  let q := m / 2 ^ k
  let r := m % 2 ^ k
  let up := decide (2 ^ k < 2 * r) || (decide (2 * r = 2 ^ k) && decide (q % 2 = 1))
  (if up then q + 1 else q) * 2 ^ k

/-- The double nearest to an integer, ties going to the even significand, and an infinity
when the rounded magnitude reaches `2^1024`: what an arithmetic operation on
integer-valued doubles gives for the exact result `n`.  Every integer of magnitude up to
`2^53` is a double. -/
def toDouble (n : Int) : Num :=
  if n.natAbs ≤ 2 ^ 53 then .fin n
  else if 2 ^ 256 * 2 ^ 256 * 2 ^ 256 * 2 ^ 256 ≤ roundMagnitude n.natAbs then
    (if n < 0 then .negInf else .posInf)
  else .fin (if n < 0 then -(roundMagnitude n.natAbs : Int) else (roundMagnitude n.natAbs : Int))

/-- Function `Math.min` on two numbers. -/
def mathMin : Num → Num → Num
  | .nan, _ => .nan
  | _, .nan => .nan
  | .negInf, _ => .negInf
  | _, .negInf => .negInf
  | .posInf, b => b
  | a, .posInf => a
  | .fin a, .fin b => .fin (min a b)

/-- Function `Math.max` on two numbers. -/
def mathMax : Num → Num → Num
  | .nan, _ => .nan
  | _, .nan => .nan
  | .posInf, _ => .posInf
  | _, .posInf => .posInf
  | .negInf, b => b
  | a, .negInf => a
  | .fin a, .fin b => .fin (max a b)

/-- Number subtraction `a - b`, rounded as the double arithmetic of the language rounds. -/
def numSub : Num → Num → Num
  | .nan, _ => .nan
  | _, .nan => .nan
  | .posInf, .posInf => .nan
  | .negInf, .negInf => .nan
  | .posInf, _ => .posInf
  | .negInf, _ => .negInf
  | .fin _, .posInf => .negInf
  | .fin _, .negInf => .posInf
  | .fin a, .fin b => toDouble (a - b)

/-- Number addition `a + b`, rounded as the double arithmetic of the language rounds. -/
def numAdd : Num → Num → Num
  | .nan, _ => .nan
  | _, .nan => .nan
  | .posInf, .negInf => .nan
  | .negInf, .posInf => .nan
  | .posInf, _ => .posInf
  | .negInf, _ => .negInf
  | .fin _, .posInf => .posInf
  | .fin _, .negInf => .negInf
  | .fin a, .fin b => toDouble (a + b)

/-- Comparison `a < b` of two numbers; false when one of them is `NaN`. -/
def numLt : Num → Num → Bool
  | .fin a, .fin b => decide (a < b)
  | .fin _, .posInf => true
  | .negInf, .fin _ => true
  | .negInf, .posInf => true
  | _, _ => false

/-- How `Array.prototype.sort` reads a comparator result `v = cmp a b`: `a` may stay before
`b` unless `v > 0`; a `NaN` result (`none`) counts as `+0`. -/
def cmpLE {α : Type} (cmp : α → α → Option Int) (a b : α) : Bool :=
  match cmp a b with
  | some d => decide (d ≤ 0)
  | none => true

/-- Insertion of `a` before the first element it may precede. -/
def sortInsert {α : Type} (cmp : α → α → Option Int) (a : α) : List α → List α
  | [] => [a]
  | b :: t => if cmpLE cmp a b then a :: b :: t else b :: sortInsert cmp a t

/-- Method `sort(cmp)` of an array, as the array it leaves behind (and returns).  The
language requires a stable sort; for a consistent comparator that fixes the result, which
this stable insertion sort computes.  For an inconsistent comparator (one that yields
`NaN`) the language leaves the order to the engine, and this is one possible order. -/
def jsSort {α : Type} (cmp : α → α → Option Int) : List α → List α
  | [] => []
  | a :: t => sortInsert cmp a (jsSort cmp t)

/-! ## Version selector -/

/-- Record of `versions.json`. -/
structure Version where
  id : Option JSString
  date : Option JSString
  label : Option JSString
  size : Option JSString
  checksum : Option JSString
  magnetLink : Option JSString
  httpsLink : Option JSString
  deriving DecidableEq, Repr

/-- Constant table `MESSAGES`, entry `noLinks`. -/
def MESSAGES_noLinks : JSString := utf16 "⚠️ Oops! No download links available for this version"

/-- Constant table `MESSAGES`, entry `seedReminder`. -/
def MESSAGES_seedReminder : JSString := utf16 "💚 Please seed after downloading via torrent"

/-- Constant `CHECKSUM_PREVIEW_LENGTH`. -/
def CHECKSUM_PREVIEW_LENGTH : Nat := 4

/-- Time value of `new Date(version.date)`: `NaN` (`none`) when the date is absent or does
not parse. -/
def dateOf (parse : JSString → Option Int) (date : Option JSString) : Option Int :=
  match date with
  | some s => parse s
  | none => none

/-- Comparison `new Date(x) > new Date(y)` of two time values; false when either is `NaN`. -/
def dateGt : Option Int → Option Int → Bool
  | some a, some b => decide (b < a)
  | _, _ => false

/-- Difference `new Date(x) - new Date(y)` of two time values; `NaN` when either is. -/
def dateDiff : Option Int → Option Int → Option Int
  | some a, some b => some (a - b)
  | _, _ => none

/-- Function `getLatestVersion`; `none` is the `undefined` that `versions[0]` gives on an
empty list. -/
def getLatestVersion (parse : JSString → Option Int) (versions : List Version) :
    Option Version :=
  let dated := versions.filter fun version =>
    truthy version.date && (dateOf parse version.date).isSome
  match dated with
  | [] => versions.head?
  | first :: rest =>
    some (rest.foldl (fun latest current =>
      if dateGt (dateOf parse current.date) (dateOf parse latest.date) then current
      else latest) first)

/-- Function `getVersionKey`. -/
def getVersionKey (version : Version) : JSString :=
  if truthy version.id then version.id.getD []
  else if truthy version.date then version.date.getD []
  else orElse version.label []

/-- Element `option` of the version dropdown. -/
structure VersionOption where
  value : JSString
  textContent : JSString
  deriving DecidableEq, Repr

/-- Function `createVersionOption`. -/
def createVersionOption (version : Version) (isLatest : Bool) : VersionOption :=
  let baseLabel :=
    if truthy version.date then
      (if truthy version.label then
        version.date.getD [] ++ utf16 " - " ++ version.label.getD []
      else version.date.getD [])
    else orElse version.label (utf16 "Untitled")
  { value := getVersionKey version
    textContent := if isLatest then baseLabel ++ utf16 " - Latest" else baseLabel }

/-- Function `formatChecksum`. -/
def formatChecksum (checksum : Option JSString) : JSString :=
  if !truthy checksum || decide ((checksum.getD []).length < CHECKSUM_PREVIEW_LENGTH * 2) then
    orElse checksum (utf16 "-")
  else
    let c := checksum.getD []
    let start := substring c 0 (some CHECKSUM_PREVIEW_LENGTH)
    let stop := substring c ((c.length : Int) - CHECKSUM_PREVIEW_LENGTH) none
    start ++ utf16 "..." ++ stop

/-- Function `isValidLink`, read as a condition. -/
def isValidLink (link : Option JSString) : Bool :=
  truthy link && trim (link.getD []) != []

/-- Link button of the download panel: its `href` and its `style.display`. -/
structure Button where
  href : Option JSString
  display : JSString
  deriving DecidableEq, Repr

/-- Function `updateButton`: the button it leaves and the flag it returns. -/
def updateButton (button : Button) (link : Option JSString) (shouldShow : Bool) :
    Button × Bool :=
  if shouldShow && isValidLink link then
    ({ href := link, display := utf16 "inline-flex" }, true)
  else
    ({ button with display := utf16 "none" }, false)

/-- Element built by `createHelperText`. -/
structure HelperText where
  className : JSString
  textContent : JSString
  color : Option JSString
  deriving DecidableEq, Repr

/-- Function `createHelperText`. -/
def createHelperText (message : JSString) (isError : Bool) : HelperText :=
  { className := if isError then utf16 "helper-text error-text" else utf16 "helper-text"
    textContent := message
    color := if isError then some (utf16 "#dc3545") else none }

/-- The part of the page the version selector writes: the dropdown's options, the file
information, the two link buttons and the `.helper-text` elements of the button wrapper
in document order. -/
structure VersionDom where
  dropdown : List VersionOption
  fileSize : JSString
  checksumText : JSString
  checksumFull : JSString
  downloadBtn : Button
  httpsBtn : Button
  helpers : List HelperText
  deriving DecidableEq, Repr

/-- Function `updateHelperText`: the first `.helper-text` of the wrapper is removed and the
new one appended. -/
def updateHelperText (helpers : List HelperText) (hasAnyLink : Bool) : List HelperText :=
  let message := if hasAnyLink then MESSAGES_seedReminder else MESSAGES_noLinks
  helpers.tail ++ [createHelperText message (!hasAnyLink)]

/-- Function `updateFileInfo`. -/
def updateFileInfo (version : Version) (dom : VersionDom) : VersionDom :=
  { dom with
    fileSize := orElse version.size (utf16 "-")
    checksumText := formatChecksum version.checksum
    checksumFull := orElse version.checksum [] }

/-- Function `updateDownloadLink`: the page is left as it is when no version has the key. -/
def updateDownloadLink (versions : List Version) (versionKey : JSString)
    (dom : VersionDom) : VersionDom :=
  match versions.find? fun v => getVersionKey v == versionKey with
  | none => dom
  | some version =>
    let dom1 := updateFileInfo version dom
    let magnet := updateButton dom1.downloadBtn version.magnetLink true
    let https := updateButton dom1.httpsBtn version.httpsLink true
    let hasAnyLink := magnet.2 || https.2
    { dom1 with
      downloadBtn := magnet.1
      httpsBtn := https.1
      helpers := updateHelperText dom1.helpers hasAnyLink }

/-- The array `ordered` of `populateVersions`. -/
def orderedVersions (parse : JSString → Option Int) (versions : List Version) :
    List Version :=
  let latestVersion := getLatestVersion parse versions
  let latestKey := match latestVersion with
    | some v => getVersionKey v
    | none => []
  let preRender := versions.filter fun version => version.id == some (utf16 "seed-pre-render")
  let dated := versions.filter fun version => truthy version.date
  let undated := versions.filter fun version =>
    !truthy version.date && version.id != some (utf16 "seed-pre-render")
  let sortedDated := jsSort
    (fun a b => dateDiff (dateOf parse b.date) (dateOf parse a.date)) dated
  let restDated := sortedDated.filter fun version => getVersionKey version != latestKey
  latestVersion.toList ++ preRender ++ restDated ++ undated

/-- Function `populateVersions`.  With a non-empty list `ordered` starts with the latest
version, so `ordered[0]` exists; the last branch is never taken. -/
def populateVersions (parse : JSString → Option Int) (versions : List Version)
    (dom : VersionDom) : VersionDom :=
  if versions.length = 0 then dom
  else
    let latestVersion := getLatestVersion parse versions
    let latestKey := match latestVersion with
      | some v => getVersionKey v
      | none => []
    let ordered := orderedVersions parse versions
    let dom1 := { dom with
      dropdown := dom.dropdown ++ ordered.map fun version =>
        createVersionOption version (getVersionKey version == latestKey) }
    match ordered.head? with
    | some first => updateDownloadLink versions (getVersionKey first) dom1
    | none => dom1

/-! ## Sign wall -/

/-- Record of `signs.json`, as parsed: `col` and `row` hold integer-valued doubles. -/
structure Sign where
  col : Option Int
  row : Option Int
  text : JSString
  color : Option JSString
  glow : Option Bool
  deriving DecidableEq, Repr

/-- Keyed collection in creation order: a `Map`, or a plain object whose property names
are the canonical strings of integers (then the key is that integer). -/
abbrev Assoc (κ β : Type) := List (κ × β)

/-- Write `o[k] = v` (or `map.set(k, v)`): an existing key keeps its place. -/
def assocSet {κ β : Type} [DecidableEq κ] (o : Assoc κ β) (k : κ) (v : β) : Assoc κ β :=
  match o with
  | [] => [(k, v)]
  | (k0, v0) :: t => if k0 = k then (k, v) :: t else (k0, v0) :: assocSet t k v

/-- Read `o[k]` (or `map.get(k)`): `none` is `undefined`. -/
def assocGet {κ β : Type} [DecidableEq κ] (o : Assoc κ β) (k : κ) : Option β :=
  match o with
  | [] => none
  | (k0, v0) :: t => if k0 = k then some v0 else assocGet t k

/-- Property names that are array indices: the integers from 0 to 2^32 - 2. -/
def isArrayIndex (k : Int) : Bool := decide (0 ≤ k ∧ k < 4294967295)

/-- Function `Object.entries` on an object with integer-named properties: the array
indices in ascending order, then the other names in creation order. -/
def objectEntries {β : Type} (o : Assoc Int β) : List (Int × β) :=
  jsSort (fun a b => some (a.1 - b.1)) (o.filter fun e => isArrayIndex e.1) ++
    o.filter fun e => !isArrayIndex e.1

/-- Function `Object.keys`, each name already read back as a number (`.map(Number)`). -/
def objectKeys {β : Type} (o : Assoc Int β) : List Int :=
  (objectEntries o).map Prod.fst

/-- The three variables the first loop of `renderSignWall` updates. -/
structure Scan where
  rowGroups : Assoc Int (List Sign)
  minCol : Num
  maxCol : Num
  deriving DecidableEq, Repr

/-- Body of the first `signs.forEach` of `renderSignWall`. -/
def scanStep (st : Scan) (sign : Sign) : Scan :=
  let r := sign.row.getD 0
  let c := sign.col.getD 0
  let groups := if (assocGet st.rowGroups r).isNone then assocSet st.rowGroups r [] else st.rowGroups
  { rowGroups := assocSet groups r ((assocGet groups r).getD [] ++ [sign])
    minCol := mathMin st.minCol (.fin c)
    maxCol := mathMax st.maxCol (.fin c) }

/-- First loop of `renderSignWall`, from `rowGroups = {}`, `minCol = Infinity`,
`maxCol = -Infinity`. -/
def scanSigns (signs : List Sign) : Scan :=
  signs.foldl scanStep { rowGroups := [], minCol := .posInf, maxCol := .negInf }

/-- The value `COLS` of `renderSignWall`. -/
def COLS (signs : List Sign) : Num :=
  numAdd (numSub (scanSigns signs).maxCol (scanSigns signs).minCol) (.fin 1)

/-- The array `usedRows` of `renderSignWall`. -/
def usedRows (signs : List Sign) : List Int :=
  jsSort (fun a b => some (a - b)) (objectKeys (scanSigns signs).rowGroups)

/-- The loop `usedRows.forEach((r, i) => rowMapping[r] = usedRows.length - 1 - i)` from
index `i` on. -/
def fillRowMapping (len : Nat) : List Int → Nat → Assoc Int Int → Assoc Int Int
  | [], _, m => m
  | r :: t, i, m => fillRowMapping len t (i + 1) (assocSet m r ((len : Int) - 1 - (i : Int)))

/-- The object `rowMapping` of `renderSignWall`. -/
def rowMapping (signs : List Sign) : Assoc Int Int :=
  fillRowMapping (usedRows signs).length (usedRows signs) 0 []

/-- The value `wallRow` for the group of raw row `signRow`:
`rowMapping[signRow] ?? parseInt(signRow, 10)`. -/
def wallRow (signs : List Sign) (signRow : Int) : Int :=
  (assocGet (rowMapping signs) signRow).getD signRow

/-- Key of `wallSignMap`: the two numbers the template string of the key is made of (the
decimal rendering of a number determines it). -/
abbrev CellKey := Num × Int

/-- The calls `wallSignMap.set(key, sign)` of `renderSignWall`, in the order they are made. -/
def wallSignWrites (signs : List Sign) : List (CellKey × Sign) :=
  (objectEntries (scanSigns signs).rowGroups).flatMap fun entry =>
    entry.2.map fun sign =>
      ((numSub (.fin (sign.col.getD 0)) (scanSigns signs).minCol, wallRow signs entry.1), sign)

/-- The map `wallSignMap` once it is built. -/
def wallSignMap (signs : List Sign) : Assoc CellKey Sign :=
  (wallSignWrites signs).foldl (fun m w => assocSet m w.1 w.2) []

/-- Cell appended to the grid: its loop coordinates and the sign laid over it, if any.
The random tint of the block behind is not modelled. -/
structure Cell where
  col : Nat
  row : Nat
  sign : Option Sign
  deriving DecidableEq, Repr

/-- Key the emission loop looks up for the cell at `(col, row)`. -/
def cellKey (col row : Nat) : CellKey := (.fin col, (row : Int))

/-- Number of rounds of `for (let col = 0; col < bound; col++)`; `none` when the loop
does not end.  The counter is a double: it takes every integer up to `2^53` and then
stays there, `2^53 + 1` being rounded back to `2^53`, so a bound above `2^53` is never
reached. -/
def loopCount : Num → Option Nat
  | .fin n => if n ≤ 2 ^ 53 then some n.toNat else none
  | .posInf => none
  | _ => some 0

/-- The two emission loops of `renderSignWall`, row by row. -/
def emitCells (rowCount cols : Nat) (m : Assoc CellKey Sign) : List Cell :=
  (List.range rowCount).flatMap fun row =>
    (List.range cols).map fun col =>
      { col := col, row := row, sign := assocGet m (cellKey col row) }

/-- Function `renderSignWall` on the loaded sign list: the cells appended to the grid, in
order; `none` when the emission does not end. -/
def renderSignWall (signs : List Sign) : Option (List Cell) :=
  if signs.length = 0 then some []
  else if (usedRows signs).length = 0 then some []
  else (loopCount (COLS signs)).map fun cols =>
    emitCells (usedRows signs).length cols (wallSignMap signs)

/-- Display coordinates of a sign, as the key the write loop of `renderSignWall` stores it
under: its shifted column `(sign.col ?? 0) - minCol` and the wall row of its raw row. -/
def signKey (signs : List Sign) (sign : Sign) : CellKey :=
  (numSub (.fin (sign.col.getD 0)) (scanSigns signs).minCol, wallRow signs (sign.row.getD 0))

/-- The counter of the inner emission loop after `col++`: the double nearest to
`col + 1`.  The counter starts at 0, so it is `col + 1` up to `2^53` and stays `2^53`
from there; the infinite results lie beyond the counters reached from 0. -/
def colSucc (col : Nat) : Nat :=
  match numAdd (.fin (col : Int)) (.fin 1) with
  | .fin n => n.toNat
  | _ => col

/-- The two emission loops of `renderSignWall` as a machine, entered at the test of the
inner condition `col < COLS` with the counters at `row` and `col`, and run for at most
`fuel` such tests: the cells appended, in order.  A test that succeeds appends the cell
of `(col, row)` and increments `col`; one that fails moves to the next row. -/
def emitRun (rowCount : Nat) (cols : Num) (m : Assoc CellKey Sign) : Nat → Nat → Nat → List Cell
  | 0, _, _ => []
  | fuel + 1, row, col =>
    if row < rowCount then
      if numLt (.fin (col : Int)) cols then
        { col := col, row := row, sign := assocGet m (cellKey col row) } ::
          emitRun rowCount cols m fuel row (colSucc col)
      else emitRun rowCount cols m fuel (row + 1) 0
    else []

/-- The cells `renderSignWall` has appended to the grid once the inner condition of the
emission has been tested `fuel` times (or the emission has ended before). -/
def wallCells (signs : List Sign) (fuel : Nat) : List Cell :=
  if signs.length = 0 then []
  else emitRun (usedRows signs).length (COLS signs) (wallSignMap signs) fuel 0 0

/-! ## History timeline -/

/-- Event record of `history.json`. -/
structure HistoryEvent where
  date : JSString
  category : JSString
  title : JSString
  description : JSString
  deriving DecidableEq, Repr

/-- Acknowledgement record of `history.json`. -/
structure ThanksEntry where
  name : Option JSString
  trusted : Option Bool
  contribution : Option JSString
  deriving DecidableEq, Repr

/-- Record the `map` of `renderThanksList` builds from an entry. -/
structure ThanksRow where
  name : JSString
  trusted : Bool
  contribution : JSString
  fullText : JSString
  deriving DecidableEq, Repr

/-- Callback of the `map` in `renderThanksList`. -/
def thanksRow (entry : ThanksEntry) : ThanksRow :=
  let name := orElse entry.name (utf16 "Unknown")
  let trusted := entry.trusted.getD false
  let contribution := orElse entry.contribution []
  { name := name
    trusted := trusted
    contribution := contribution
    fullText := name ++ (if trusted then utf16 " [trusted]" else []) ++
      (if contribution ≠ [] then utf16 " - " ++ contribution else []) }

/-- The array `sortedThanks` of `renderThanksList`. -/
def sortedThanks (historyThanks : List ThanksEntry) : List ThanksRow :=
  jsSort (fun a b => some ((b.fullText.length : Int) - (a.fullText.length : Int)))
    (historyThanks.map thanksRow)

/-- Child node of a list item: a `span` with a class and a text, or a text node. -/
inductive Node where
  | span (className : JSString) (text : JSString)
  | text (data : JSString)
  deriving DecidableEq, Repr

/-- Text of a node. -/
def Node.textContent : Node → JSString
  | .span _ t => t
  | .text d => d

/-- Text of an element: the texts of its children, concatenated. -/
def itemText (children : List Node) : JSString :=
  children.flatMap Node.textContent

/-- Body of `sortedThanks.forEach`: the children of the `li` it appends. -/
def thanksItem (entry : ThanksRow) : List Node :=
  [Node.span (utf16 "thanks-name") entry.name] ++
    (if entry.trusted then [Node.text (utf16 " "), Node.span (utf16 "thanks-tag") (utf16 "[trusted]")]
      else []) ++
    (if entry.contribution ≠ [] then [Node.text (utf16 " - " ++ entry.contribution)] else [])

/-- Card of the timeline: its position (for the animation delay), the class of its dot,
and its three texts. -/
structure TimelineCard where
  index : Nat
  dotClass : JSString
  dateText : JSString
  title : JSString
  desc : JSString
  deriving DecidableEq, Repr

/-- Content of the timeline container. -/
inductive Timeline where
  | cards (nodes : List TimelineCard)
  | noHistory
  deriving DecidableEq, Repr

/-- Module state of the history tab with the part of the page it writes: the display of
the thanks section, the items of the thanks list and the timeline container. -/
structure HistoryPage where
  historyEvents : List HistoryEvent
  historyThanks : List ThanksEntry
  historyLoaded : Bool
  timelineRendered : Bool
  thanksDisplay : JSString
  thanksItems : List (List Node)
  timeline : Timeline
  deriving DecidableEq, Repr

/-- Parsed body of `history.json`: an array of events, or an object whose `events` and
`thanks` may or may not be arrays. -/
inductive HistoryJson where
  | array (events : List HistoryEvent)
  | object (events : Option (List HistoryEvent)) (thanks : Option (List ThanksEntry))
  deriving DecidableEq, Repr

/-- Function `loadHistoryEvents`; `fetched` is the outcome of the request (`none` when the
request or the parsing fails). -/
def loadHistoryEvents (fetched : Option HistoryJson) (page : HistoryPage) :
    HistoryPage × Bool :=
  if page.historyLoaded then (page, true)
  else
    match fetched with
    | none => (page, false)
    | some (.array events) =>
      ({ page with historyEvents := events, historyThanks := [], historyLoaded := true }, true)
    | some (.object events thanks) =>
      ({ page with historyEvents := events.getD [], historyThanks := thanks.getD [],
                   historyLoaded := true }, true)

/-- Function `renderThanksList` (the section and the list exist in the page). -/
def renderThanksList (page : HistoryPage) : HistoryPage :=
  if page.historyThanks.length = 0 then { page with thanksDisplay := utf16 "none" }
  else { page with
    thanksDisplay := []
    thanksItems := (sortedThanks page.historyThanks).map thanksItem }

/-- The array `sorted` of `renderTimeline`, a sorted copy of `historyEvents`. -/
def sortedEvents (parse : JSString → Option Int) (historyEvents : List HistoryEvent) :
    List HistoryEvent :=
  jsSort (fun a b => dateDiff (parse a.date) (parse b.date)) historyEvents

/-- Body of `sorted.forEach` from index `i` on: one card per event. `formatDate` is the
host's `toLocaleDateString` on a time value. -/
def timelineCards (parse : JSString → Option Int) (formatDate : Option Int → JSString) :
    List HistoryEvent → Nat → List TimelineCard
  | [], _ => []
  | evt :: t, i =>
    { index := i
      dotClass := utf16 "tl-dot tl-cat-" ++ evt.category
      dateText := formatDate (parse evt.date)
      title := evt.title
      desc := evt.description } :: timelineCards parse formatDate t (i + 1)

/-- Function `renderTimeline`. -/
def renderTimeline (parse : JSString → Option Int) (formatDate : Option Int → JSString)
    (fetched : Option HistoryJson) (page : HistoryPage) : HistoryPage :=
  if page.timelineRendered then page
  else
    let loaded := loadHistoryEvents fetched { page with timeline := .cards [] }
    let page1 := renderThanksList loaded.1
    if !loaded.2 || page1.historyEvents.length = 0 then
      { page1 with timeline := .noHistory, timelineRendered := true }
    else
      { page1 with
        timeline := .cards (timelineCards parse formatDate
          (sortedEvents parse page1.historyEvents) 0)
        timelineRendered := true }

/-- A model of the host's `Date.parse` on the date-only form `YYYY-MM-DD` (UTC midnight of
that day, in milliseconds); every other string is taken as unparseable.  Used for
concrete examples only: the theorems hold for every `parse`. -/
def isoDateParse (s : JSString) : Option Int :=
  match s with
  | [y1, y2, y3, y4, 45, m1, m2, 45, d1, d2] =>
    let dig := fun (u : Nat) => decide (48 ≤ u ∧ u ≤ 57)
    if dig y1 && dig y2 && dig y3 && dig y4 && dig m1 && dig m2 && dig d1 && dig d2 then
      let y : Int := (y1 - 48) * 1000 + (y2 - 48) * 100 + (y3 - 48) * 10 + (y4 - 48)
      let m : Int := (m1 - 48) * 10 + (m2 - 48)
      let d : Int := (d1 - 48) * 10 + (d2 - 48)
      let leap := decide (y % 4 = 0 ∧ (y % 100 ≠ 0 ∨ y % 400 = 0))
      let dim : Int :=
        if m = 2 then (if leap then 29 else 28)
        else if m = 4 ∨ m = 6 ∨ m = 9 ∨ m = 11 then 30 else 31
      if 1 ≤ m ∧ m ≤ 12 ∧ 1 ≤ d ∧ d ≤ dim then
        let yy := if m ≤ 2 then y - 1 else y
        let era := yy / 400
        let yoe := yy - era * 400
        let mp := if m > 2 then m - 3 else m + 9
        let doy := (153 * mp + 2) / 5 + d - 1
        let doe := yoe * 365 + yoe / 4 - yoe / 100 + doy
        some ((era * 146097 + doe - 719468) * 86400000)
      else none
    else none
  | _ => none

/-! ## Tab controller -/

/-- Element a tab switch may select as `current` or `next`: its id, its class list and its
`style.display`. -/
structure Panel where
  id : Option JSString
  classes : List JSString
  display : JSString
  deriving DecidableEq, Repr

/-- Element of class `tab-btn`: its `data-tab` attribute and its class list. -/
structure TabButton where
  dataTab : Option JSString
  classes : List JSString
  deriving DecidableEq, Repr

/-- Callback that `switchTab` hands to `setTimeout`: the positions in the page of the
elements `current` and `next` it closes over (`next` is `none` when no element has the
id). -/
structure Transition where
  current : Nat
  next : Option Nat
  deriving DecidableEq, Repr

/-- The part of the page `switchTab` reads and writes: the elements it may select as
panels and the `.tab-btn` elements, both in document order, the class list of `body`,
and the callbacks scheduled and not yet run. -/
structure TabPage where
  panels : List Panel
  buttons : List TabButton
  bodyClasses : List JSString
  timers : List Transition
  deriving DecidableEq, Repr

/-- How a call ends: it returns, or a `TypeError` is thrown on a `null` element; either
way with the page as the call left it. -/
inductive Outcome where
  | returned (page : TabPage)
  | threw (page : TabPage)
  deriving DecidableEq, Repr

/-- Method `classList.add(token)`: a token already there stays where it is. -/
def classAdd (classes : List JSString) (token : JSString) : List JSString :=
  if token ∈ classes then classes else classes ++ [token]

/-- Method `classList.remove(token)`. -/
def classRemove (classes : List JSString) (token : JSString) : List JSString :=
  classes.filter fun c => c != token

/-- Position of the first element that matches, as `querySelector` and `getElementById`
select it; `none` is `null`. -/
def firstIndex {α : Type} (p : α → Bool) : List α → Option Nat
  | [] => none
  | a :: t => if p a then some 0 else (firstIndex p t).map (· + 1)

/-- Write to the element at a position. -/
def modifyAt {α : Type} (f : α → α) : Nat → List α → List α
  | _, [] => []
  | 0, a :: t => f a :: t
  | i + 1, a :: t => a :: modifyAt f i t

/-- The three statements that show `next` at once: the `else` branch of `switchTab`. -/
def showNext (next : Option Nat) (page : TabPage) : Outcome :=
  match next with
  | none => .threw page
  | some n =>
    .returned { page with
      panels := modifyAt (fun el =>
        { el with display := utf16 "block"
                  classes := classAdd el.classes (utf16 "tab-active") }) n page.panels }

/-- Callback of the `setTimeout` in `switchTab`, run on the page as it is by then. -/
def runTransition (t : Transition) (page : TabPage) : Outcome :=
  let hidden := modifyAt (fun el =>
    { el with classes := classRemove el.classes (utf16 "tab-exit")
              display := utf16 "none" }) t.current page.panels
  showNext t.next { page with panels := hidden }

/-- The last `if` chain of `switchTab`, on the class list of `body`. -/
def bodyClassesFor (tabName : JSString) (body : List JSString) : List JSString :=
  if tabName = utf16 "memories" then
    classRemove (classRemove (classAdd body (utf16 "memories-active"))
      (utf16 "history-active")) (utf16 "signwall-active")
  else if tabName = utf16 "signwall" then
    classRemove (classRemove (classAdd body (utf16 "signwall-active"))
      (utf16 "memories-active")) (utf16 "history-active")
  else if tabName = utf16 "history" then
    classRemove (classRemove (classAdd body (utf16 "history-active"))
      (utf16 "memories-active")) (utf16 "signwall-active")
  else
    classRemove (classRemove (classRemove body (utf16 "memories-active"))
      (utf16 "history-active")) (utf16 "signwall-active")

/-- Function `switchTab`.  The loader it calls last for the tab (`loadMemories`,
`renderSignWall`, `renderTimeline`) writes to other parts of the page and is not part of
this state. -/
def switchTab (tabName : JSString) (page : TabPage) : Outcome :=
  let current := firstIndex (fun el =>
    decide (utf16 "tab-content" ∈ el.classes) && decide (utf16 "tab-active" ∈ el.classes))
    page.panels
  let next := firstIndex (fun el => el.id == some (utf16 "tab-" ++ tabName)) page.panels
  let cleared := page.buttons.map fun el =>
    { el with classes := classRemove el.classes (utf16 "active") }
  match firstIndex (fun el => el.dataTab == some tabName) cleared with
  | none => .threw { page with buttons := cleared }
  | some b =>
    let page1 := { page with
      buttons := modifyAt (fun el =>
        { el with classes := classAdd el.classes (utf16 "active") }) b cleared }
    let shown :=
      match current with
      | some c =>
        if some c ≠ next then
          Outcome.returned { page1 with
            panels := modifyAt (fun el =>
              { el with classes := classRemove (classAdd el.classes (utf16 "tab-exit"))
                          (utf16 "tab-active") }) c page1.panels
            timers := page1.timers ++ [Transition.mk c next] }
        else showNext next page1
      | none => showNext next page1
    match shown with
    | .threw page2 => .threw page2
    | .returned page2 =>
      .returned { page2 with bodyClasses := bodyClassesFor tabName page2.bodyClasses }

/-! ## Sample data -/

/-- Version record with the given id, date and label and nothing else. -/
def mkVersion (id date label : Option String) : Version :=
  { id := id.map utf16, date := date.map utf16, label := label.map utf16,
    size := none, checksum := none, magnetLink := none, httpsLink := none }

/-- Two versions of the same day, told apart by their labels. -/
def sameDayFull : Version := mkVersion none (some "2024-03-01") (some "Full")

/-- The second version of that day. -/
def sameDayLite : Version := mkVersion none (some "2024-03-01") (some "Lite")

/-- The two versions of the example of the specification. -/
def v2024 : Version := mkVersion none (some "2024-01-01") none

/-- The later one of the two. -/
def v2025 : Version := mkVersion none (some "2025-06-01") none

/-- Page before any version is loaded. -/
def emptyVersionDom : VersionDom :=
  { dropdown := [], fileSize := [], checksumText := [], checksumFull := [],
    downloadBtn := { href := none, display := [] },
    httpsBtn := { href := none, display := [] }, helpers := [] }

/-- Version with a date and both links. -/
def v2023 : Version :=
  { id := none, date := some (utf16 "2023-02-01"), label := some (utf16 "Old"),
    size := some (utf16 "1.2 GB"), checksum := none,
    magnetLink := some (utf16 "magnet:?xt=urn:btih:abc"),
    httpsLink := some (utf16 "   ") }

/-- Entry with the pinned id and no date. -/
def pinned : Version := mkVersion (some "seed-pre-render") none (some "Seed")

/-- Entry with a label only. -/
def beta : Version := mkVersion none none (some "beta")

/-- Dated version with an id. -/
def taggedDated : Version := mkVersion (some "v1") (some "2024-03-01") none

/-- Undated entry with the id of `taggedDated`. -/
def taggedUndated : Version := mkVersion (some "v1") none (some "Notes")

/-- A version list with pairwise distinct keys. -/
def dropdownSample : List Version := [v2024, pinned, v2023, beta, v2025]

/-- Sign at column `c` and row `r`. -/
def sgn (c r : Int) (t : String) : Sign :=
  { col := some c, row := some r, text := utf16 t, color := none, glow := none }

/-- Signs at rows 0 and 2, the example of the specification. -/
def twoRows : List Sign := [sgn 0 0 "low", sgn 1 2 "high"]

/-- Signs at negative and non-contiguous places, one without coordinates. -/
def wallSample : List Sign :=
  [sgn 3 5 "a", sgn (-2) (-1) "b",
   { col := none, row := none, text := utf16 "c", color := none, glow := none },
   sgn 1 5 "d"]

/-- The two events of the example of the specification. -/
def twoEvents : List HistoryEvent :=
  [{ date := utf16 "2023-05-01", category := utf16 "release", title := utf16 "Second",
     description := utf16 "later" },
   { date := utf16 "2021-01-01", category := utf16 "start", title := utf16 "First",
     description := utf16 "earlier" }]

/-- Three acknowledgements: a bare name, a trusted contributor, a nameless entry. -/
def threeThanks : List ThanksEntry :=
  [{ name := some (utf16 "Ann"), trusted := none, contribution := none },
   { name := some (utf16 "Bob"), trusted := some true,
     contribution := some (utf16 "maps") },
   { name := none, trusted := some false, contribution := some (utf16 "x") }]

/-- History tab before its first activation. -/
def freshHistoryPage : HistoryPage :=
  { historyEvents := [], historyThanks := [], historyLoaded := false,
    timelineRendered := false, thanksDisplay := [], thanksItems := [],
    timeline := .cards [] }

/-- Date formatter that shows the time value in days since the epoch as one code unit;
stands for the host's `toLocaleDateString` in the examples. -/
def daysFormat (t : Option Int) : JSString :=
  match t with
  | some ms => [(ms / 86400000).toNat]
  | none => utf16 "Invalid Date"

/-- Entry with the pinned id that also has a date. -/
def pinnedDated : Version := mkVersion (some "seed-pre-render") (some "2023-07-01") (some "Seed")

/-- Three signs, the first and the last at the same place. -/
def collidingSigns : List Sign := [sgn 4 0 "first", sgn 5 1 "other", sgn 4 0 "second"]

/-- Panel of a tab with the given classes and display. -/
def mkPanel (name : String) (classes : List String) (display : String) : Panel :=
  { id := some (utf16 "tab-" ++ utf16 name), classes := classes.map utf16,
    display := utf16 display }

/-- Button of a tab with the given classes. -/
def mkTabButton (name : String) (classes : List String) : TabButton :=
  { dataTab := some (utf16 name), classes := classes.map utf16 }

/-- Page with the download tab shown. -/
def downloadShown : TabPage :=
  { panels := [mkPanel "download" ["tab-content", "tab-active"] "block",
               mkPanel "memories" ["tab-content"] "none",
               mkPanel "history" ["tab-content"] "none"]
    buttons := [mkTabButton "download" ["tab-btn", "active"],
                mkTabButton "memories" ["tab-btn"],
                mkTabButton "history" ["tab-btn"]]
    bodyClasses := []
    timers := [] }

/-- Page in which the history tab was left for the download tab and chosen again before
the delayed transition ran: its panel still carries `tab-exit`, and the transition is
pending. -/
def historyReshown : TabPage :=
  { panels := [mkPanel "download" ["tab-content"] "none",
               mkPanel "memories" ["tab-content"] "none",
               mkPanel "history" ["tab-content", "tab-exit", "tab-active"] "block"]
    buttons := [mkTabButton "download" ["tab-btn"],
                mkTabButton "memories" ["tab-btn"],
                mkTabButton "history" ["tab-btn", "active"]]
    bodyClasses := [utf16 "history-active"]
    timers := [{ current := 2, next := some 0 }] }

/-- Signs in columns 0 and 2^53. -/
def farSigns : List Sign := [sgn 0 0 "near", sgn 9007199254740992 0 "far"]

/-- Signs in columns -1 and 2^53. -/
def edgeSigns : List Sign := [sgn (-1) 0 "near", sgn 9007199254740992 0 "far"]

/-- Signs in columns 0 and 2^53 + 2, in two rows. -/
def endlessSigns : List Sign := [sgn 0 0 "low", sgn 9007199254740994 1 "far"]

/-! ## Lemmas on strings -/

theorem truthy_some_iff (s : JSString) : truthy (some s) = true ↔ s ≠ [] := by
  cases s <;> simp [truthy]

theorem orElse_some_of_ne_nil (s b : JSString) (h : s ≠ []) : orElse (some s) b = s := by
  cases s with
  | nil => exact absurd rfl h
  | cons u t => rfl

theorem substring_take (s : JSString) (n : Nat) (h : n ≤ s.length) :
    substring s 0 (some (n : Int)) = s.take n := by
  simp [substring, h]

theorem substring_drop (s : JSString) (n : Nat) (h : n ≤ s.length) :
    substring s ((s.length : Int) - (n : Int)) none = s.drop (s.length - n) := by
  have e : ((s.length : Int) - (n : Int)).toNat = s.length - n := by omega
  simp only [substring, e]
  have h1 : min (s.length - n) s.length = s.length - n := by omega
  rw [h1, h1]
  have h2 : max (s.length - n) s.length = s.length := by omega
  rw [h2]
  apply List.take_of_length_le
  simp

theorem forall_mem_dropWhile_iff (p : Nat → Bool) (l : List Nat) :
    (∀ x ∈ l.dropWhile p, p x = true) ↔ ∀ x ∈ l, p x = true := by
  induction l with
  | nil => simp
  | cons a t ih =>
    by_cases ha : p a = true
    · simp [List.dropWhile_cons, ha, ih]
    · simp only [List.dropWhile_cons, ha]
      simp

theorem trim_eq_nil_iff (s : JSString) : trim s = [] ↔ ∀ u ∈ s, isWhiteSpace u = true := by
  unfold trim
  rw [List.reverse_eq_nil_iff, List.dropWhile_eq_nil_iff]
  constructor
  · intro h
    exact (forall_mem_dropWhile_iff _ _).1 fun x hx => h x (List.mem_reverse.2 hx)
  · intro h x hx
    exact (forall_mem_dropWhile_iff _ _).2 h x (List.mem_reverse.1 hx)

theorem isValidLink_iff (link : Option JSString) :
    isValidLink link = true ↔ ∃ s, link = some s ∧ ∃ u ∈ s, isWhiteSpace u = false := by
  cases link with
  | none => simp [isValidLink, truthy]
  | some s =>
    have ht := trim_eq_nil_iff s
    constructor
    · intro h
      simp only [isValidLink, Bool.and_eq_true, bne_iff_ne, Option.getD_some] at h
      refine ⟨s, rfl, ?_⟩
      by_contra hcon
      exact h.2 (ht.2 fun u hu => by
        by_contra hw
        exact hcon ⟨u, hu, by simpa using hw⟩)
    · rintro ⟨s', hs', u, hu, hw⟩
      cases hs'
      have hne : s ≠ [] := by
        intro h0
        simp [h0] at hu
      simp only [isValidLink, Bool.and_eq_true, bne_iff_ne, Option.getD_some]
      refine ⟨(truthy_some_iff s).2 hne, ?_⟩
      intro h0
      have := ht.1 h0 u hu
      simp [hw] at this

/-! ## Lemmas on sorting -/

theorem sortInsert_perm {α : Type} (cmp : α → α → Option Int) (a : α) (l : List α) :
    (sortInsert cmp a l).Perm (a :: l) := by
  induction l with
  | nil => exact List.Perm.refl _
  | cons b t ih =>
    unfold sortInsert
    split
    · exact List.Perm.refl _
    · exact (ih.cons b).trans (List.Perm.swap a b t)

theorem jsSort_perm {α : Type} (cmp : α → α → Option Int) (l : List α) :
    (jsSort cmp l).Perm l := by
  induction l with
  | nil => exact List.Perm.refl _
  | cons a t ih =>
    unfold jsSort
    exact (sortInsert_perm cmp a _).trans (ih.cons a)

theorem sortInsert_map {α β : Type} (cmp : β → β → Option Int) (f : α → β) (a : α)
    (l : List α) :
    sortInsert cmp (f a) (l.map f) =
      (sortInsert (fun x y => cmp (f x) (f y)) a l).map f := by
  induction l with
  | nil => rfl
  | cons b t ih =>
    simp only [List.map_cons, sortInsert, cmpLE]
    split <;> simp [ih]

theorem jsSort_map {α β : Type} (cmp : β → β → Option Int) (f : α → β) (l : List α) :
    jsSort cmp (l.map f) = (jsSort (fun x y => cmp (f x) (f y)) l).map f := by
  induction l with
  | nil => rfl
  | cons a t ih =>
    simp only [List.map_cons, jsSort, ih, sortInsert_map]

theorem mem_jsSort {α : Type} (cmp : α → α → Option Int) (l : List α) (x : α) :
    x ∈ jsSort cmp l ↔ x ∈ l :=
  (jsSort_perm cmp l).mem_iff

theorem sortInsert_pairwise {α : Type} (cmp : α → α → Option Int) (key : α → Int)
    (a : α) (l : List α)
    (hcmp : ∀ x ∈ a :: l, ∀ y ∈ a :: l, cmpLE cmp x y = decide (key x ≤ key y))
    (hl : l.Pairwise fun x y => key x ≤ key y) :
    (sortInsert cmp a l).Pairwise fun x y => key x ≤ key y := by
  induction l with
  | nil => simp [sortInsert]
  | cons b t ih =>
    have hb := List.pairwise_cons.1 hl
    unfold sortInsert
    split
    · rename_i hle
      rw [hcmp a (by simp) b (by simp)] at hle
      have hab : key a ≤ key b := by simpa using hle
      refine List.pairwise_cons.2 ⟨?_, hl⟩
      intro y hy
      rcases List.mem_cons.1 hy with rfl | hy
      · exact hab
      · exact le_trans hab (hb.1 y hy)
    · rename_i hle
      rw [hcmp a (by simp) b (by simp)] at hle
      have hba : key b ≤ key a := by
        have : ¬ key a ≤ key b := by simpa using hle
        omega
      refine List.pairwise_cons.2 ⟨?_, ?_⟩
      · intro y hy
        rcases List.mem_cons.1 ((sortInsert_perm cmp a t).mem_iff.1 hy) with rfl | hy
        · exact hba
        · exact hb.1 y hy
      · apply ih _ hb.2
        intro x hx y hy
        apply hcmp
        · rcases List.mem_cons.1 hx with rfl | hx
          · simp
          · simp [hx]
        · rcases List.mem_cons.1 hy with rfl | hy
          · simp
          · simp [hy]

theorem jsSort_pairwise {α : Type} (cmp : α → α → Option Int) (key : α → Int) (l : List α)
    (hcmp : ∀ x ∈ l, ∀ y ∈ l, cmpLE cmp x y = decide (key x ≤ key y)) :
    (jsSort cmp l).Pairwise fun x y => key x ≤ key y := by
  induction l with
  | nil => simp [jsSort]
  | cons a t ih =>
    unfold jsSort
    apply sortInsert_pairwise
    · intro x hx y hy
      apply hcmp
      · rcases List.mem_cons.1 hx with rfl | hx
        · simp
        · exact List.mem_cons_of_mem _ ((mem_jsSort cmp t x).1 hx)
      · rcases List.mem_cons.1 hy with rfl | hy
        · simp
        · exact List.mem_cons_of_mem _ ((mem_jsSort cmp t y).1 hy)
    · apply ih
      intro x hx y hy
      exact hcmp x (List.mem_cons_of_mem _ hx) y (List.mem_cons_of_mem _ hy)

/-! ## Lemmas on the version selector -/

theorem dated_iff (parse : JSString → Option Int) (v : Version) :
    (truthy v.date && (dateOf parse v.date).isSome) = true ↔
      ∃ s t, v.date = some s ∧ s ≠ [] ∧ parse s = some t := by
  cases hd : v.date with
  | none => simp [truthy]
  | some s =>
    cases s with
    | nil => simp [truthy]
    | cons u r =>
      cases hp : parse (u :: r) <;> simp [truthy, dateOf, hp]

theorem foldl_latest (parse : JSString → Option Int) (rest : List Version) (first : Version)
    (hall : ∀ v ∈ first :: rest, ∃ t, dateOf parse v.date = some t) :
    rest.foldl (fun latest current =>
        if dateGt (dateOf parse current.date) (dateOf parse latest.date) then current
        else latest) first ∈ first :: rest ∧
    ∃ t, dateOf parse (rest.foldl (fun latest current =>
        if dateGt (dateOf parse current.date) (dateOf parse latest.date) then current
        else latest) first).date = some t ∧
      ∀ v ∈ first :: rest, ∀ t0, dateOf parse v.date = some t0 → t0 ≤ t := by
  induction rest generalizing first with
  | nil =>
    obtain ⟨t, ht⟩ := hall first (by simp)
    refine ⟨by simp, t, by simpa using ht, ?_⟩
    intro v hv t0 h0
    simp only [List.mem_singleton] at hv
    subst hv
    rw [ht] at h0
    cases h0
    exact le_refl _
  | cons c r ih =>
    obtain ⟨tf, htf⟩ := hall first (by simp)
    obtain ⟨tc, htc⟩ := hall c (by simp)
    simp only [List.foldl_cons, htf, htc, dateGt]
    by_cases hlt : tf < tc
    · simp only [hlt, decide_True, if_true]
      have hall2 : ∀ v ∈ c :: r, ∃ t, dateOf parse v.date = some t := fun v hv =>
        hall v (List.mem_cons_of_mem _ hv)
      obtain ⟨hmem, t, ht, hmax⟩ := ih c hall2
      refine ⟨List.mem_cons_of_mem _ hmem, t, ht, ?_⟩
      intro v hv t0 h0
      rcases List.mem_cons.1 hv with rfl | hv
      · rw [htf] at h0
        cases h0
        exact le_trans (le_of_lt hlt) (hmax c (by simp) tc htc)
      · exact hmax v hv t0 h0
    · simp only [hlt, decide_False, if_false, Bool.false_eq_true]
      have hall2 : ∀ v ∈ first :: r, ∃ t, dateOf parse v.date = some t := by
        intro v hv
        rcases List.mem_cons.1 hv with rfl | hv
        · exact ⟨tf, htf⟩
        · exact hall v (by simp [hv])
      obtain ⟨hmem, t, ht, hmax⟩ := ih first hall2
      refine ⟨?_, t, ht, ?_⟩
      · rcases List.mem_cons.1 hmem with h | h
        · exact List.mem_cons.2 (Or.inl h)
        · exact List.mem_cons_of_mem _ (List.mem_cons_of_mem _ h)
      · intro v hv t0 h0
        rcases List.mem_cons.1 hv with rfl | hv
        · exact hmax v (by simp) t0 h0
        · rcases List.mem_cons.1 hv with rfl | hv
          · rw [htc] at h0
            cases h0
            exact le_trans (not_lt.1 hlt) (hmax first (by simp) tf htf)
          · exact hmax v (by simp [hv]) t0 h0

theorem getLatestVersion_mem (parse : JSString → Option Int) (versions : List Version)
    (hne : versions ≠ []) :
    ∃ latest, getLatestVersion parse versions = some latest ∧ latest ∈ versions := by
  unfold getLatestVersion
  cases hf : versions.filter (fun version =>
      truthy version.date && (dateOf parse version.date).isSome) with
  | nil =>
    cases versions with
    | nil => exact absurd rfl hne
    | cons a t => exact ⟨a, rfl, by simp⟩
  | cons first rest =>
    have hall : ∀ w ∈ first :: rest, ∃ t, dateOf parse w.date = some t := by
      intro w hw
      rw [← hf] at hw
      obtain ⟨s, t, hs, _, ht⟩ := (dated_iff parse w).1 (List.mem_filter.1 hw).2
      exact ⟨t, by simp [dateOf, hs, ht]⟩
    obtain ⟨hmem, _⟩ := foldl_latest parse rest first hall
    rw [← hf] at hmem
    exact ⟨_, rfl, (List.mem_filter.1 hmem).1⟩

theorem find?_key_of_nodup (l : List Version) (a : Version) (ha : a ∈ l)
    (hnd : (l.map getVersionKey).Nodup) :
    l.find? (fun x => getVersionKey x == getVersionKey a) = some a := by
  induction l with
  | nil => simp at ha
  | cons b t ih =>
    by_cases hk : getVersionKey b = getVersionKey a
    · have hba : b = a := List.inj_on_of_nodup_map hnd (by simp) ha hk
      subst hba
      simp [List.find?_cons]
    · have hat : a ∈ t := by
        rcases List.mem_cons.1 ha with h | h
        · exact absurd (by rw [h]) hk
        · exact h
      have hnd2 : (t.map getVersionKey).Nodup := by
        rw [List.map_cons] at hnd
        exact (List.nodup_cons.1 hnd).2
      have hb : (getVersionKey b == getVersionKey a) = false := by simpa using hk
      simp only [List.find?_cons, hb]
      exact ih hat hnd2

theorem sortedDated_pairwise (parse : JSString → Option Int) (l : List Version)
    (hall : ∀ v ∈ l, ∃ t, dateOf parse v.date = some t) :
    (jsSort (fun a b => dateDiff (dateOf parse b.date) (dateOf parse a.date)) l).Pairwise
      fun a b => ∃ ta tb, dateOf parse a.date = some ta ∧ dateOf parse b.date = some tb ∧
        tb ≤ ta := by
  have h := jsSort_pairwise
    (fun a b => dateDiff (dateOf parse b.date) (dateOf parse a.date))
    (fun v => - (dateOf parse v.date).getD 0) l (by
      intro x hx y hy
      obtain ⟨tx, hx1⟩ := hall x hx
      obtain ⟨ty, hy1⟩ := hall y hy
      simp only [cmpLE, hx1, hy1, dateDiff, Option.getD_some]
      apply decide_eq_decide.2
      omega)
  refine h.imp_of_mem ?_
  intro a b ha hb hab
  obtain ⟨ta, ha1⟩ := hall a ((mem_jsSort _ _ _).1 ha)
  obtain ⟨tb, hb1⟩ := hall b ((mem_jsSort _ _ _).1 hb)
  refine ⟨ta, tb, ha1, hb1, ?_⟩
  simp only [ha1, hb1, Option.getD_some] at hab
  omega

/-! ## Lemmas on keyed collections -/

theorem assocGet_assocSet_self {κ β : Type} [DecidableEq κ] (o : Assoc κ β) (k : κ) (v : β) :
    assocGet (assocSet o k v) k = some v := by
  induction o with
  | nil => simp [assocSet, assocGet]
  | cons e t ih =>
    obtain ⟨k0, v0⟩ := e
    by_cases h : k0 = k
    · simp [assocSet, assocGet, h]
    · simp [assocSet, assocGet, h, ih]

theorem assocGet_assocSet_ne {κ β : Type} [DecidableEq κ] (o : Assoc κ β) (k k1 : κ) (v : β)
    (hne : k ≠ k1) : assocGet (assocSet o k v) k1 = assocGet o k1 := by
  induction o with
  | nil => simp [assocSet, assocGet, hne]
  | cons e t ih =>
    obtain ⟨k0, v0⟩ := e
    by_cases h : k0 = k
    · subst h
      simp [assocSet, assocGet, hne]
    · by_cases h1 : k0 = k1
      · subst h1
        simp [assocSet, assocGet, h]
      · simp [assocSet, assocGet, h, h1, ih]

theorem mem_keys_assocSet {κ β : Type} [DecidableEq κ] (o : Assoc κ β) (k x : κ) (v : β) :
    x ∈ (assocSet o k v).map Prod.fst ↔ x = k ∨ x ∈ o.map Prod.fst := by
  induction o with
  | nil => simp [assocSet]
  | cons e t ih =>
    obtain ⟨k0, v0⟩ := e
    by_cases h : k0 = k
    · subst h
      simp [assocSet]
    · simp only [assocSet, h, if_false, List.map_cons, List.mem_cons, ih]
      tauto

theorem nodup_keys_assocSet {κ β : Type} [DecidableEq κ] (o : Assoc κ β) (k : κ) (v : β)
    (h : (o.map Prod.fst).Nodup) : ((assocSet o k v).map Prod.fst).Nodup := by
  induction o with
  | nil => simp [assocSet]
  | cons e t ih =>
    obtain ⟨k0, v0⟩ := e
    rw [List.map_cons, List.nodup_cons] at h
    by_cases h0 : k0 = k
    · subst h0
      simp only [assocSet, if_true, List.map_cons, List.nodup_cons]
      exact h
    · simp only [assocSet, h0, if_false, List.map_cons, List.nodup_cons]
      refine ⟨?_, ih h.2⟩
      intro hmem
      rcases (mem_keys_assocSet t k k0 v).1 hmem with h1 | h1
      · exact h0 h1
      · exact h.1 h1

theorem assocGet_eq_none_iff {κ β : Type} [DecidableEq κ] (o : Assoc κ β) (k : κ) :
    assocGet o k = none ↔ k ∉ o.map Prod.fst := by
  induction o with
  | nil => simp [assocGet]
  | cons e t ih =>
    obtain ⟨k0, v0⟩ := e
    by_cases h : k0 = k
    · simp [assocGet, h]
    · have h1 : ¬ k = k0 := fun e => h e.symm
      simp [assocGet, h, h1, ih]

theorem assocGet_eq_some_iff {κ β : Type} [DecidableEq κ] (o : Assoc κ β) (k : κ) (v : β)
    (hnd : (o.map Prod.fst).Nodup) : assocGet o k = some v ↔ (k, v) ∈ o := by
  induction o with
  | nil => simp [assocGet]
  | cons e t ih =>
    obtain ⟨k0, v0⟩ := e
    rw [List.map_cons, List.nodup_cons] at hnd
    by_cases h : k0 = k
    · subst h
      simp only [assocGet, if_true, List.mem_cons, Prod.mk.injEq, true_and, Option.some.injEq]
      constructor
      · intro e
        exact Or.inl e.symm
      · rintro (e | hmem)
        · exact e.symm
        · exact absurd (List.mem_map.2 ⟨(k0, v), hmem, rfl⟩) hnd.1
    · have h1 : ¬ k = k0 := fun e => h e.symm
      simp [assocGet, h, h1, ih hnd.2]

/-! ## Lemmas on the first loop of the sign wall -/

theorem scanSigns_concat (l : List Sign) (s : Sign) :
    scanSigns (l ++ [s]) = scanStep (scanSigns l) s := by
  simp [scanSigns, List.foldl_append]

theorem scanStep_nodup (st : Scan) (s : Sign) (h : (st.rowGroups.map Prod.fst).Nodup) :
    ((scanStep st s).rowGroups.map Prod.fst).Nodup := by
  unfold scanStep
  apply nodup_keys_assocSet
  split
  · exact nodup_keys_assocSet _ _ _ h
  · exact h

theorem scanStep_get (st : Scan) (s : Sign) (r : Int) :
    assocGet (scanStep st s).rowGroups r =
      if s.row.getD 0 = r then some ((assocGet st.rowGroups r).getD [] ++ [s])
      else assocGet st.rowGroups r := by
  unfold scanStep
  by_cases hr : s.row.getD 0 = r
  · subst hr
    simp only [if_true, assocGet_assocSet_self]
    cases hg : assocGet st.rowGroups (s.row.getD 0) with
    | none => simp [assocGet_assocSet_self]
    | some g => simp [hg]
  · simp only [hr, if_false]
    rw [assocGet_assocSet_ne _ _ _ _ hr]
    split
    · exact assocGet_assocSet_ne _ _ _ _ hr
    · rfl

theorem scanSigns_nodup (l : List Sign) : ((scanSigns l).rowGroups.map Prod.fst).Nodup := by
  induction l using List.reverseRecOn with
  | nil => simp [scanSigns]
  | append_singleton l s ih =>
    rw [scanSigns_concat]
    exact scanStep_nodup _ _ ih

theorem scanSigns_get (l : List Sign) (r : Int) :
    assocGet (scanSigns l).rowGroups r =
      if l.filter (fun s => decide (s.row.getD 0 = r)) = [] then none
      else some (l.filter fun s => decide (s.row.getD 0 = r)) := by
  induction l using List.reverseRecOn with
  | nil => simp [scanSigns, assocGet]
  | append_singleton l s ih =>
    rw [scanSigns_concat, scanStep_get, ih, List.filter_append]
    by_cases hr : s.row.getD 0 = r
    · by_cases hf : l.filter (fun s => decide (s.row.getD 0 = r)) = []
      · simp [hr, hf]
      · simp [hr, hf]
    · by_cases hf : l.filter (fun s => decide (s.row.getD 0 = r)) = []
      · simp [hr, hf]
      · simp [hr, hf]

theorem mem_scanSigns_keys (l : List Sign) (r : Int) :
    r ∈ (scanSigns l).rowGroups.map Prod.fst ↔ ∃ s ∈ l, s.row.getD 0 = r := by
  have h := assocGet_eq_none_iff (scanSigns l).rowGroups r
  rw [scanSigns_get] at h
  by_cases hf : l.filter (fun s => decide (s.row.getD 0 = r)) = []
  · simp only [hf, if_true, true_iff] at h
    constructor
    · intro hm
      exact absurd hm h
    · rintro ⟨s, hs, hr⟩
      have : s ∈ l.filter (fun s => decide (s.row.getD 0 = r)) :=
        List.mem_filter.2 ⟨hs, by simpa using hr⟩
      simp [hf] at this
  · simp only [hf, if_false] at h
    constructor
    · intro _
      obtain ⟨s, hs⟩ := List.exists_mem_of_ne_nil _ hf
      obtain ⟨h1, h2⟩ := List.mem_filter.1 hs
      exact ⟨s, h1, by simpa using h2⟩
    · intro _
      by_contra hm
      have := h.2 hm
      simp at this

theorem scanSigns_bounds (l : List Sign) (hne : l ≠ []) :
    ∃ lo hi, (scanSigns l).minCol = .fin lo ∧ (scanSigns l).maxCol = .fin hi ∧
      (∃ s ∈ l, s.col.getD 0 = lo) ∧ (∃ s ∈ l, s.col.getD 0 = hi) ∧
      ∀ s ∈ l, lo ≤ s.col.getD 0 ∧ s.col.getD 0 ≤ hi := by
  induction l using List.reverseRecOn with
  | nil => exact absurd rfl hne
  | append_singleton l s ih =>
    rw [scanSigns_concat]
    by_cases hl : l = []
    · subst hl
      refine ⟨s.col.getD 0, s.col.getD 0, ?_, ?_, ⟨s, by simp, rfl⟩, ⟨s, by simp, rfl⟩, ?_⟩
      · simp [scanSigns, scanStep, mathMin]
      · simp [scanSigns, scanStep, mathMax]
      · intro t ht
        simp only [List.nil_append, List.mem_singleton] at ht
        subst ht
        exact ⟨le_refl _, le_refl _⟩
    · obtain ⟨lo, hi, h1, h2, ⟨a, ha, hae⟩, ⟨b, hb, hbe⟩, hall⟩ := ih hl
      refine ⟨min lo (s.col.getD 0), max hi (s.col.getD 0), ?_, ?_, ?_, ?_, ?_⟩
      · simp [scanStep, h1, mathMin]
      · simp [scanStep, h2, mathMax]
      · by_cases hc : lo ≤ s.col.getD 0
        · exact ⟨a, by simp [ha], by rw [hae]; exact (min_eq_left hc).symm⟩
        · exact ⟨s, by simp, (min_eq_right (le_of_not_le hc)).symm⟩
      · by_cases hc : s.col.getD 0 ≤ hi
        · exact ⟨b, by simp [hb], by rw [hbe]; exact (max_eq_left hc).symm⟩
        · exact ⟨s, by simp, (max_eq_right (le_of_not_le hc)).symm⟩
      · intro t ht
        rcases List.mem_append.1 ht with ht | ht
        · have := hall t ht
          exact ⟨le_trans (min_le_left _ _) this.1, le_trans this.2 (le_max_left _ _)⟩
        · simp only [List.mem_singleton] at ht
          subst ht
          exact ⟨min_le_right _ _, le_max_right _ _⟩

/-! ## Lemmas on the row mapping -/

theorem objectEntries_perm {β : Type} (o : Assoc Int β) : (objectEntries o).Perm o := by
  unfold objectEntries
  exact ((jsSort_perm _ _).append_right _).trans (List.filter_append_perm _ o)

theorem objectKeys_perm {β : Type} (o : Assoc Int β) :
    (objectKeys o).Perm (o.map Prod.fst) :=
  (objectEntries_perm o).map Prod.fst

theorem usedRows_perm (signs : List Sign) :
    (usedRows signs).Perm ((scanSigns signs).rowGroups.map Prod.fst) :=
  (jsSort_perm _ _).trans (objectKeys_perm _)

theorem mem_usedRows (signs : List Sign) (r : Int) :
    r ∈ usedRows signs ↔ ∃ s ∈ signs, s.row.getD 0 = r :=
  (usedRows_perm signs).mem_iff.trans (mem_scanSigns_keys signs r)

theorem usedRows_nodup (signs : List Sign) : (usedRows signs).Nodup :=
  (usedRows_perm signs).nodup_iff.2 (scanSigns_nodup signs)

theorem usedRows_sorted (signs : List Sign) : (usedRows signs).Pairwise (· < ·) := by
  have hle : (usedRows signs).Pairwise fun x y => x ≤ y := by
    unfold usedRows
    apply jsSort_pairwise (fun a b => some (a - b)) id
    intro x _ y _
    simp only [cmpLE, id]
    apply decide_eq_decide.2
    omega
  have hne : (usedRows signs).Pairwise (· ≠ ·) := usedRows_nodup signs
  exact (hle.and hne).imp fun h => lt_of_le_of_ne h.1 h.2

theorem fillRowMapping_get_of_not_mem (len : Nat) (l : List Int) (i : Nat)
    (m : Assoc Int Int) (r : Int) (hr : r ∉ l) :
    assocGet (fillRowMapping len l i m) r = assocGet m r := by
  induction l generalizing i m with
  | nil => rfl
  | cons a t ih =>
    simp only [List.mem_cons, not_or] at hr
    simp only [fillRowMapping]
    rw [ih _ _ hr.2]
    exact assocGet_assocSet_ne _ _ _ _ (fun e => hr.1 e.symm)

theorem fillRowMapping_get (len : Nat) (l : List Int) (i : Nat) (m : Assoc Int Int)
    (r : Int) (hnd : l.Nodup) (hr : r ∈ l) :
    assocGet (fillRowMapping len l i m) r =
      some ((len : Int) - 1 - ((i + l.indexOf r : Nat) : Int)) := by
  induction l generalizing i m with
  | nil => simp at hr
  | cons a t ih =>
    rw [List.nodup_cons] at hnd
    simp only [fillRowMapping]
    by_cases ha : a = r
    · subst ha
      rw [fillRowMapping_get_of_not_mem _ _ _ _ _ hnd.1, assocGet_assocSet_self,
        List.indexOf_cons_self]
      simp
    · have hrt : r ∈ t := by
        rcases List.mem_cons.1 hr with h | h
        · exact absurd h.symm ha
        · exact h
      rw [ih _ _ hnd.2 hrt, List.indexOf_cons_ne _ ha]
      congr 2
      omega

theorem wallRow_eq (signs : List Sign) (r : Int) (hr : r ∈ usedRows signs) :
    wallRow signs r =
      ((usedRows signs).length : Int) - 1 - (((usedRows signs).indexOf r : Nat) : Int) := by
  unfold wallRow rowMapping
  rw [fillRowMapping_get _ _ _ _ _ (usedRows_nodup signs) hr]
  simp

theorem wallRow_getElem (signs : List Sign) (i : Nat) (r : Int)
    (h : (usedRows signs)[i]? = some r) :
    wallRow signs r = ((usedRows signs).length : Int) - 1 - (i : Int) := by
  obtain ⟨hi, hget⟩ := List.getElem?_eq_some_iff.1 h
  have hmem : r ∈ usedRows signs := by
    rw [← hget]
    exact List.getElem_mem hi
  rw [wallRow_eq signs r hmem]
  have := List.indexOf_getElem (usedRows_nodup signs) i hi
  rw [hget] at this
  rw [this]

theorem wallRow_range (signs : List Sign) (r : Int) (hr : r ∈ usedRows signs) :
    0 ≤ wallRow signs r ∧ wallRow signs r < ((usedRows signs).length : Int) := by
  rw [wallRow_eq signs r hr]
  have := List.indexOf_lt_length.2 hr
  omega

theorem wallRow_injective (signs : List Sign) (r1 r2 : Int) (h1 : r1 ∈ usedRows signs)
    (h2 : r2 ∈ usedRows signs) (h : wallRow signs r1 = wallRow signs r2) : r1 = r2 := by
  rw [wallRow_eq signs r1 h1, wallRow_eq signs r2 h2] at h
  apply (List.indexOf_inj h1 h2).1
  omega

theorem usedRows_length_pos (signs : List Sign) (hne : signs ≠ []) :
    0 < (usedRows signs).length := by
  obtain ⟨s, hs⟩ := List.exists_mem_of_ne_nil _ hne
  exact List.length_pos_of_mem ((mem_usedRows signs _).2 ⟨s, hs, rfl⟩)

theorem mem_emitCells_keys (rowCount cols : Nat) (m : Assoc CellKey Sign) (c r : Nat)
    (hc : c < cols) (hr : r < rowCount) :
    cellKey c r ∈ (emitCells rowCount cols m).map fun cell => cellKey cell.col cell.row := by
  simp only [emitCells, List.mem_map, List.mem_flatMap, List.mem_range]
  exact ⟨{ col := c, row := r, sign := assocGet m (cellKey c r) },
    ⟨r, hr, c, hc, rfl⟩, rfl⟩

/-! ## Lemmas on the history tab -/

theorem loadHistoryEvents_timeline (fetched : Option HistoryJson) (page : HistoryPage)
    (tl : Timeline) :
    loadHistoryEvents fetched { page with timeline := tl } =
      ({ (loadHistoryEvents fetched page).1 with timeline := tl },
        (loadHistoryEvents fetched page).2) := by
  unfold loadHistoryEvents
  cases hl : page.historyLoaded
  · cases fetched with
    | none => simp [hl]
    | some j =>
      cases j <;> simp [hl]
  · simp [hl]

theorem renderThanksList_historyEvents (page : HistoryPage) :
    (renderThanksList page).historyEvents = page.historyEvents := by
  unfold renderThanksList
  split <;> rfl

theorem timelineCards_length (parse : JSString → Option Int)
    (formatDate : Option Int → JSString) (l : List HistoryEvent) (i : Nat) :
    (timelineCards parse formatDate l i).length = l.length := by
  induction l generalizing i with
  | nil => rfl
  | cons e t ih => simp [timelineCards, ih]

theorem timelineCards_texts (parse : JSString → Option Int)
    (formatDate : Option Int → JSString) (l : List HistoryEvent) (i : Nat) :
    (timelineCards parse formatDate l i).map (fun c => (c.dateText, c.title, c.desc)) =
      l.map fun e => (formatDate (parse e.date), e.title, e.description) := by
  induction l generalizing i with
  | nil => rfl
  | cons e t ih => simp [timelineCards, ih]

theorem sortedEvents_pairwise (parse : JSString → Option Int) (l : List HistoryEvent)
    (hall : ∀ e ∈ l, ∃ t, parse e.date = some t) :
    (sortedEvents parse l).Pairwise
      fun a b => ∃ ta tb, parse a.date = some ta ∧ parse b.date = some tb ∧ ta ≤ tb := by
  have h := jsSort_pairwise
    (fun (a b : HistoryEvent) => dateDiff (parse a.date) (parse b.date))
    (fun e => (parse e.date).getD 0) l (by
      intro x hx y hy
      obtain ⟨tx, hx1⟩ := hall x hx
      obtain ⟨ty, hy1⟩ := hall y hy
      simp only [cmpLE, hx1, hy1, dateDiff, Option.getD_some]
      apply decide_eq_decide.2
      omega)
  refine h.imp_of_mem ?_
  intro a b ha hb hab
  obtain ⟨ta, ha1⟩ := hall a ((mem_jsSort _ _ _).1 ha)
  obtain ⟨tb, hb1⟩ := hall b ((mem_jsSort _ _ _).1 hb)
  refine ⟨ta, tb, ha1, hb1, ?_⟩
  simpa [ha1, hb1] using hab

theorem itemText_thanksItem (e : ThanksEntry) :
    itemText (thanksItem (thanksRow e)) = (thanksRow e).fullText := by
  have h1 : utf16 " " ++ utf16 "[trusted]" = utf16 " [trusted]" := by decide
  cases ht : e.trusted.getD false <;>
    by_cases hc : orElse e.contribution [] = [] <;>
    simp [itemText, thanksItem, thanksRow, ht, hc, Node.textContent, ← h1]

/-! ## Sign wall grid -/

/-- Claim C1: `usedRows` holds the distinct raw rows of the signs in ascending order, so
`rowCount`, its length, is the number of distinct raw rows, and the row at index `i` of
it gets display row `rowCount - 1 - i`.  Hence the display row of every sign lies in
`[0, rowCount)`, signs of different raw rows get different display rows, and a sign of
the smallest raw row gets `rowCount - 1`. -/
theorem rowMapping_reversed (signs : List Sign) (hne : signs ≠ []) :
    0 < (usedRows signs).length ∧
    (usedRows signs).Pairwise (· < ·) ∧
    (∀ r, r ∈ usedRows signs ↔ ∃ s ∈ signs, s.row.getD 0 = r) ∧
    (usedRows signs).length = (signs.map fun s => s.row.getD 0).toFinset.card ∧
    (∀ (i : Nat) (r : Int), (usedRows signs)[i]? = some r →
      wallRow signs r = ((usedRows signs).length : Int) - 1 - (i : Int)) ∧
    (∀ s ∈ signs, 0 ≤ wallRow signs (s.row.getD 0) ∧
      wallRow signs (s.row.getD 0) < ((usedRows signs).length : Int)) ∧
    (∀ s ∈ signs, ∀ t ∈ signs, s.row.getD 0 ≠ t.row.getD 0 →
      wallRow signs (s.row.getD 0) ≠ wallRow signs (t.row.getD 0)) ∧
    (∀ s ∈ signs, (∀ t ∈ signs, s.row.getD 0 ≤ t.row.getD 0) →
      wallRow signs (s.row.getD 0) = ((usedRows signs).length : Int) - 1) := by
  have hmem : ∀ s ∈ signs, s.row.getD 0 ∈ usedRows signs := fun s hs =>
    (mem_usedRows signs _).2 ⟨s, hs, rfl⟩
  refine ⟨usedRows_length_pos signs hne, usedRows_sorted signs, mem_usedRows signs, ?_,
    wallRow_getElem signs, fun s hs => wallRow_range signs _ (hmem s hs), ?_, ?_⟩
  · rw [← List.toFinset_card_of_nodup (usedRows_nodup signs)]
    congr 1
    ext r
    simp only [List.mem_toFinset, List.mem_map]
    exact mem_usedRows signs r
  · intro s hs t ht hst h
    exact hst (wallRow_injective signs _ _ (hmem s hs) (hmem t ht) h)
  · intro s hs hmin
    have hpos := usedRows_length_pos signs hne
    cases hu : usedRows signs with
    | nil => simp [hu] at hpos
    | cons a rest =>
      have hsorted := usedRows_sorted signs
      rw [hu] at hsorted
      have ha : a ∈ usedRows signs := by simp [hu]
      obtain ⟨t, ht, hta⟩ := (mem_usedRows signs a).1 ha
      have hsa : s.row.getD 0 = a := by
        have h1 : s.row.getD 0 ≤ a := hta ▸ hmin t ht
        have h2 := hmem s hs
        rw [hu] at h2
        rcases List.mem_cons.1 h2 with h | h
        · exact h
        · have := (List.pairwise_cons.1 hsorted).1 _ h
          omega
      have h0 : (usedRows signs)[0]? = some (s.row.getD 0) := by simp [hu, hsa]
      have := wallRow_getElem signs 0 _ h0
      rw [hu] at this
      simpa using this

/-- Claim C1, at signs in raw rows 0 and 2: two display rows, row 0 shown at display
row 1 and row 2 at display row 0. -/
theorem rowMapping_reversed_witness :
    twoRows ≠ [] ∧ usedRows twoRows = [0, 2] ∧
    wallRow twoRows 0 = 1 ∧ wallRow twoRows 2 = 0 :=
  ⟨by decide, by decide,
   ((rowMapping_reversed twoRows (by decide)).2.2.2.2.1 0 0 (by decide)).trans (by decide),
   ((rowMapping_reversed twoRows (by decide)).2.2.2.2.1 1 2 (by decide)).trans (by decide)⟩

/-! ## Checksum preview -/

/-- Claim C5: a checksum of at least 8 code units is shown as its first 4 code units, the
literal `...`, and its last 4 code units; the preview has length 11. -/
theorem formatChecksum_long (c : JSString) (h : 8 ≤ c.length) :
    formatChecksum (some c) = c.take 4 ++ utf16 "..." ++ c.drop (c.length - 4) ∧
    (formatChecksum (some c)).length = 11 := by
  have hne : c ≠ [] := by
    intro h0
    simp [h0] at h
  have ht : truthy (some c) = true := (truthy_some_iff c).2 hne
  have hlen : ¬ c.length < 8 := by omega
  have e : formatChecksum (some c) = c.take 4 ++ utf16 "..." ++ c.drop (c.length - 4) := by
    have h1 := substring_take c 4 (by omega)
    have h2 := substring_drop c 4 (by omega)
    simp only [Nat.cast_ofNat] at h1 h2
    simp [formatChecksum, CHECKSUM_PREVIEW_LENGTH, ht, hlen, h1, h2]
  refine ⟨e, ?_⟩
  rw [e]
  have hdots : (utf16 "...").length = 3 := by decide
  simp only [List.length_append, List.length_take, List.length_drop, hdots]
  omega

/-- Claim C5, at a 64-digit checksum. -/
theorem formatChecksum_long_witness :
    formatChecksum (some (utf16
      "e3b0c44298fc1c149afbf4c8996fb92427ae41e4649b934ca495991b7852b855")) =
      utf16 "e3b0...b855" ∧
    (formatChecksum (some (utf16
      "e3b0c44298fc1c149afbf4c8996fb92427ae41e4649b934ca495991b7852b855"))).length = 11 :=
  ⟨(formatChecksum_long _ (by decide)).1.trans (by decide),
   (formatChecksum_long _ (by decide)).2⟩

/-- Claim C6 as stated fails: the empty string is shorter than 8 code units and is not
returned unchanged, the preview is `-`. -/
theorem formatChecksum_empty_not_unchanged :
    ([] : JSString).length < 8 ∧ formatChecksum (some []) = utf16 "-" ∧
    formatChecksum (some []) ≠ [] := by
  decide

/-- Claim C6, amended: a checksum shorter than 8 code units is returned unchanged when it
is not empty; the empty string gives `-`, as an absent checksum does. -/
theorem formatChecksum_short (c : JSString) (h : c.length < 8) :
    formatChecksum (some c) = (if c = [] then utf16 "-" else c) ∧
    formatChecksum none = utf16 "-" := by
  refine ⟨?_, by decide⟩
  have hlen : c.length < CHECKSUM_PREVIEW_LENGTH * 2 := by
    simp only [CHECKSUM_PREVIEW_LENGTH]
    omega
  by_cases hc : c = []
  · subst hc
    decide
  · simp [formatChecksum, hlen, hc, orElse_some_of_ne_nil c _ hc]

/-- Claim C6, amended, at a 7-digit checksum. -/
theorem formatChecksum_short_witness :
    formatChecksum (some (utf16 "abc1234")) = utf16 "abc1234" :=
  (formatChecksum_short (utf16 "abc1234") (by decide)).1.trans (by decide)

/-! ## Download links -/

/-- Claim C10: for the version found by the key, each button is shown exactly when its own
link is present and has a code unit that is not white space (hidden otherwise), whatever
the other link is, and a shown button points to its link.  The helper appended to the
wrapper has the text "💚 Please seed after downloading via torrent" exactly when one of
the two buttons is shown, and the text "⚠️ Oops! No download links available for this
version" exactly when none is; the reminder has the class `helper-text` and no colour,
the error message the class `helper-text error-text` and the colour `#dc3545`. -/
theorem updateDownloadLink_buttons (versions : List Version) (key : JSString)
    (dom : VersionDom) (v : Version)
    (hfind : versions.find? (fun x => getVersionKey x == key) = some v) :
    ((updateDownloadLink versions key dom).downloadBtn.display = utf16 "inline-flex" ↔
      ∃ s, v.magnetLink = some s ∧ ∃ u ∈ s, isWhiteSpace u = false) ∧
    ((updateDownloadLink versions key dom).downloadBtn.display = utf16 "none" ↔
      ¬ ∃ s, v.magnetLink = some s ∧ ∃ u ∈ s, isWhiteSpace u = false) ∧
    ((updateDownloadLink versions key dom).httpsBtn.display = utf16 "inline-flex" ↔
      ∃ s, v.httpsLink = some s ∧ ∃ u ∈ s, isWhiteSpace u = false) ∧
    ((updateDownloadLink versions key dom).httpsBtn.display = utf16 "none" ↔
      ¬ ∃ s, v.httpsLink = some s ∧ ∃ u ∈ s, isWhiteSpace u = false) ∧
    ((updateDownloadLink versions key dom).downloadBtn.display = utf16 "inline-flex" →
      (updateDownloadLink versions key dom).downloadBtn.href = v.magnetLink) ∧
    ((updateDownloadLink versions key dom).httpsBtn.display = utf16 "inline-flex" →
      (updateDownloadLink versions key dom).httpsBtn.href = v.httpsLink) ∧
    ∃ helper, (updateDownloadLink versions key dom).helpers = dom.helpers.tail ++ [helper] ∧
      (helper.textContent = utf16 "💚 Please seed after downloading via torrent" ↔
        ((updateDownloadLink versions key dom).downloadBtn.display = utf16 "inline-flex" ∨
         (updateDownloadLink versions key dom).httpsBtn.display = utf16 "inline-flex")) ∧
      (helper.textContent = utf16 "⚠️ Oops! No download links available for this version" ↔
        ¬ ((updateDownloadLink versions key dom).downloadBtn.display = utf16 "inline-flex" ∨
           (updateDownloadLink versions key dom).httpsBtn.display = utf16 "inline-flex")) ∧
      (helper =
          { className := utf16 "helper-text"
            textContent := utf16 "💚 Please seed after downloading via torrent"
            color := none } ∨
        helper =
          { className := utf16 "helper-text error-text"
            textContent := utf16 "⚠️ Oops! No download links available for this version"
            color := some (utf16 "#dc3545") }) := by
  have hm := isValidLink_iff v.magnetLink
  have hh := isValidLink_iff v.httpsLink
  have hd : utf16 "none" ≠ utf16 "inline-flex" := by decide
  have hmsg : utf16 "⚠️ Oops! No download links available for this version" ≠
      utf16 "💚 Please seed after downloading via torrent" := by decide
  have hseed : createHelperText MESSAGES_seedReminder false =
      { className := utf16 "helper-text"
        textContent := utf16 "💚 Please seed after downloading via torrent"
        color := none } := by decide
  have herr : createHelperText MESSAGES_noLinks true =
      { className := utf16 "helper-text error-text"
        textContent := utf16 "⚠️ Oops! No download links available for this version"
        color := some (utf16 "#dc3545") } := by decide
  rw [← hm, ← hh]
  cases em : isValidLink v.magnetLink <;> cases eh : isValidLink v.httpsLink <;>
    simp [updateDownloadLink, hfind, updateButton, updateHelperText, updateFileInfo, em, eh,
      hd, hd.symm, hmsg, hmsg.symm, hseed, herr]

/-- Claim C10, at a version with a magnet link and a blank https link: the magnet button
is shown, the https button hidden, and the helper is the seed reminder. -/
theorem updateDownloadLink_buttons_witness :
    (updateDownloadLink dropdownSample (utf16 "2023-02-01") emptyVersionDom).downloadBtn =
      { href := some (utf16 "magnet:?xt=urn:btih:abc"), display := utf16 "inline-flex" } ∧
    (updateDownloadLink dropdownSample (utf16 "2023-02-01") emptyVersionDom).httpsBtn.display =
      utf16 "none" ∧
    (updateDownloadLink dropdownSample (utf16 "2023-02-01") emptyVersionDom).helpers =
      [{ className := utf16 "helper-text"
         textContent := utf16 "💚 Please seed after downloading via torrent"
         color := none }] ∧
    (updateDownloadLink [pinned] (utf16 "seed-pre-render") emptyVersionDom).helpers =
      [{ className := utf16 "helper-text error-text"
         textContent := utf16 "⚠️ Oops! No download links available for this version"
         color := some (utf16 "#dc3545") }] :=
  ⟨by decide,
   (updateDownloadLink_buttons dropdownSample (utf16 "2023-02-01") emptyVersionDom v2023
      (by decide)).2.2.2.1.2 (by
        rintro ⟨s, hs, u, hu, hw⟩
        have e : s = [32, 32, 32] := (Option.some.inj hs).symm.trans (by decide)
        subst e
        simp only [List.mem_cons, List.mem_singleton, List.not_mem_nil, or_false, or_self] at hu
        subst hu
        exact absurd hw (by decide)),
   by decide, by decide⟩

/-! ## Latest version -/

/-- Claim C4: on a non-empty list, when some version has a date that is a non-empty string
and parses, the result is such a version of the list and no such version has a later
date; when no version has one, the result is the first entry of the list. -/
theorem getLatestVersion_latest (parse : JSString → Option Int) (versions : List Version)
    (hne : versions ≠ []) :
    ((∃ v ∈ versions, ∃ s t, v.date = some s ∧ s ≠ [] ∧ parse s = some t) →
      ∃ r s t, getLatestVersion parse versions = some r ∧ r ∈ versions ∧
        r.date = some s ∧ s ≠ [] ∧ parse s = some t ∧
        ∀ v ∈ versions, ∀ s0 t0, v.date = some s0 → s0 ≠ [] → parse s0 = some t0 → t0 ≤ t) ∧
    ((¬ ∃ v ∈ versions, ∃ s t, v.date = some s ∧ s ≠ [] ∧ parse s = some t) →
      getLatestVersion parse versions = some (versions.head hne)) := by
  constructor
  · rintro ⟨v, hv, hvd⟩
    have hvf : v ∈ versions.filter fun version =>
        truthy version.date && (dateOf parse version.date).isSome :=
      List.mem_filter.2 ⟨hv, (dated_iff parse v).2 hvd⟩
    unfold getLatestVersion
    cases hf : versions.filter (fun version =>
        truthy version.date && (dateOf parse version.date).isSome) with
    | nil => simp [hf] at hvf
    | cons first rest =>
      have hall : ∀ w ∈ first :: rest, ∃ t, dateOf parse w.date = some t := by
        intro w hw
        rw [← hf] at hw
        obtain ⟨s, t, hs, _, ht⟩ := (dated_iff parse w).1 (List.mem_filter.1 hw).2
        exact ⟨t, by simp [dateOf, hs, ht]⟩
      obtain ⟨hmem, t, ht, hmax⟩ := foldl_latest parse rest first hall
      rw [← hf] at hmem
      obtain ⟨hrv, hrd⟩ := List.mem_filter.1 hmem
      obtain ⟨s, t1, hs, hsne, hps⟩ := (dated_iff parse _).1 hrd
      have e : t1 = t := by
        rw [hs] at ht
        simp only [dateOf, hps] at ht
        exact Option.some.inj ht
      subst e
      refine ⟨_, s, t1, rfl, hrv, hs, hsne, hps, ?_⟩
      intro w hw s0 t0 h1 h2 h3
      apply hmax w
      · rw [← hf]
        exact List.mem_filter.2 ⟨hw, (dated_iff parse w).2 ⟨s0, t0, h1, h2, h3⟩⟩
      · simp [dateOf, h1, h3]
  · intro hnone
    have hf : versions.filter (fun version =>
        truthy version.date && (dateOf parse version.date).isSome) = [] := by
      apply List.filter_eq_nil_iff.2
      intro v hv hd
      exact hnone ⟨v, hv, (dated_iff parse v).1 hd⟩
    unfold getLatestVersion
    rw [hf]
    cases versions with
    | nil => exact absurd rfl hne
    | cons a t => rfl

/-- Claim C4, at the versions dated 2024-01-01 and 2025-06-01: the second is the latest. -/
theorem getLatestVersion_latest_witness :
    getLatestVersion isoDateParse [v2024, v2025] = some v2025 ∧
    (∃ r s t, getLatestVersion isoDateParse [v2024, v2025] = some r ∧ r ∈ [v2024, v2025] ∧
      r.date = some s ∧ s ≠ [] ∧ isoDateParse s = some t ∧
      ∀ v ∈ [v2024, v2025], ∀ s0 t0, v.date = some s0 → s0 ≠ [] →
        isoDateParse s0 = some t0 → t0 ≤ t) ∧
    getLatestVersion isoDateParse [beta, pinned] = some beta :=
  ⟨by decide,
   (getLatestVersion_latest isoDateParse [v2024, v2025] (by decide)).1
    ⟨v2024, by decide, utf16 "2024-01-01", 1704067200000, by decide, by decide, by decide⟩,
   (getLatestVersion_latest isoDateParse [beta, pinned] (by decide)).2 (by
      rintro ⟨v, hv, s, t, hs, -, -⟩
      simp only [List.mem_cons, List.mem_singleton, List.not_mem_nil, or_false] at hv
      rcases hv with rfl | rfl
      · exact Option.noConfusion ((show beta.date = none from rfl).symm.trans hs)
      · exact Option.noConfusion ((show pinned.date = none from rfl).symm.trans hs))⟩

/-! ## Version dropdown -/

/-- Claim C7 fails on the code: of two versions published on the same day and told apart
by their labels only, the first is the latest and the second, a dated entry other than
the latest, is appended nowhere, where the claim has it follow the latest.  The dated
entries are cleared of the latest by key; the undated entries are not, and an undated
entry with the key of the latest is appended. -/
theorem populateVersions_drops_same_key :
    getLatestVersion isoDateParse [sameDayFull, sameDayLite] = some sameDayFull ∧
    sameDayLite ∈ [sameDayFull, sameDayLite].filter (fun v => truthy v.date) ∧
    sameDayLite ≠ sameDayFull ∧
    orderedVersions isoDateParse [sameDayFull, sameDayLite] = [sameDayFull] ∧
    (populateVersions isoDateParse [sameDayFull, sameDayLite] emptyVersionDom).dropdown =
      [{ value := utf16 "2024-03-01", textContent := utf16 "2024-03-01 - Full - Latest" }] ∧
    getVersionKey taggedUndated = getVersionKey taggedDated ∧
    getLatestVersion isoDateParse [taggedDated, taggedUndated] = some taggedDated ∧
    orderedVersions isoDateParse [taggedDated, taggedUndated] = [taggedDated, taggedUndated] := by
  decide

/-- Order of the dropdown where no two versions share a key: the options appended are
those of the latest version; the entries with the pinned id; the entries with a date
other than the latest, in descending order of date when every non-empty date parses; the
entries without a date and not pinned, in list order.  The first option is the latest
version and the panel is updated for it. -/
theorem populateVersions_order (parse : JSString → Option Int) (versions : List Version)
    (dom : VersionDom) (hne : versions ≠ [])
    (hkeys : (versions.map getVersionKey).Nodup) :
    ∃ latest rest,
      getLatestVersion parse versions = some latest ∧
      orderedVersions parse versions =
        latest :: (versions.filter (fun v => v.id == some (utf16 "seed-pre-render")) ++ rest ++
          versions.filter
            (fun v => !truthy v.date && v.id != some (utf16 "seed-pre-render"))) ∧
      rest.Perm (versions.filter fun v => truthy v.date && v != latest) ∧
      ((∀ v ∈ versions, truthy v.date = true → (dateOf parse v.date).isSome = true) →
        rest.Pairwise fun a b => ∃ ta tb, dateOf parse a.date = some ta ∧
          dateOf parse b.date = some tb ∧ tb ≤ ta) ∧
      (populateVersions parse versions dom).dropdown =
        dom.dropdown ++ (orderedVersions parse versions).map
          (fun v => createVersionOption v (getVersionKey v == getVersionKey latest)) ∧
      versions.find? (fun x => getVersionKey x == getVersionKey latest) = some latest ∧
      populateVersions parse versions dom =
        updateDownloadLink versions (getVersionKey latest)
          { dom with
            dropdown := dom.dropdown ++ (orderedVersions parse versions).map
              (fun v => createVersionOption v (getVersionKey v == getVersionKey latest)) } := by
  obtain ⟨latest, hl, hmem⟩ := getLatestVersion_mem parse versions hne
  have hord : orderedVersions parse versions =
      latest :: (versions.filter (fun v => v.id == some (utf16 "seed-pre-render")) ++
        (jsSort (fun a b => dateDiff (dateOf parse b.date) (dateOf parse a.date))
          (versions.filter fun v => truthy v.date)).filter
            (fun v => getVersionKey v != getVersionKey latest) ++
        versions.filter
          (fun v => !truthy v.date && v.id != some (utf16 "seed-pre-render"))) := by
    simp [orderedVersions, hl]
  have hfind := find?_key_of_nodup versions latest hmem hkeys
  have hpop : populateVersions parse versions dom =
      updateDownloadLink versions (getVersionKey latest)
        { dom with
          dropdown := dom.dropdown ++ (orderedVersions parse versions).map
            (fun v => createVersionOption v (getVersionKey v == getVersionKey latest)) } := by
    have hlen : versions.length ≠ 0 := by
      cases versions with
      | nil => exact absurd rfl hne
      | cons a t => simp
    simp only [populateVersions, hlen, if_false, hl]
    rw [hord]
    rfl
  refine ⟨latest, _, hl, hord, ?_, ?_, ?_, hfind, hpop⟩
  · refine ((jsSort_perm _ _).filter _).trans ?_
    rw [List.filter_filter]
    apply List.Perm.of_eq
    apply List.filter_congr
    intro v hv
    by_cases hvl : v = latest
    · subst hvl
      simp
    · have hk : getVersionKey v ≠ getVersionKey latest := fun h =>
        hvl (List.inj_on_of_nodup_map hkeys hv hmem h)
      have h1 : (getVersionKey v != getVersionKey latest) = true := by simpa using hk
      have h2 : (v != latest) = true := by simpa using hvl
      simp only [h1, h2, Bool.and_true, Bool.true_and]
  · intro hparse
    apply List.Pairwise.sublist (List.filter_sublist _)
    apply sortedDated_pairwise
    intro v hv
    obtain ⟨hv1, hv2⟩ := List.mem_filter.1 hv
    exact Option.isSome_iff_exists.1 (hparse v hv1 hv2)
  · rw [hpop]
    simp [updateDownloadLink, hfind, updateFileInfo]

/-- Order of the dropdown at five versions with distinct keys: the latest, the pinned
entry, the two other dated versions from the newer to the older, the undated entry. -/
theorem populateVersions_order_witness :
    dropdownSample ≠ [] ∧ (dropdownSample.map getVersionKey).Nodup ∧
    orderedVersions isoDateParse dropdownSample = [v2025, pinned, v2024, v2023, beta] ∧
    (∀ v ∈ dropdownSample, truthy v.date = true →
      (dateOf isoDateParse v.date).isSome = true) ∧
    ∃ latest rest,
      getLatestVersion isoDateParse dropdownSample = some latest ∧
      orderedVersions isoDateParse dropdownSample =
        latest :: (dropdownSample.filter (fun v => v.id == some (utf16 "seed-pre-render")) ++
          rest ++ dropdownSample.filter
            (fun v => !truthy v.date && v.id != some (utf16 "seed-pre-render"))) ∧
      rest.Perm (dropdownSample.filter fun v => truthy v.date && v != latest) ∧
      ((∀ v ∈ dropdownSample, truthy v.date = true →
          (dateOf isoDateParse v.date).isSome = true) →
        rest.Pairwise fun a b => ∃ ta tb, dateOf isoDateParse a.date = some ta ∧
          dateOf isoDateParse b.date = some tb ∧ tb ≤ ta) ∧
      (populateVersions isoDateParse dropdownSample emptyVersionDom).dropdown =
        emptyVersionDom.dropdown ++ (orderedVersions isoDateParse dropdownSample).map
          (fun v => createVersionOption v (getVersionKey v == getVersionKey latest)) ∧
      dropdownSample.find? (fun x => getVersionKey x == getVersionKey latest) = some latest ∧
      populateVersions isoDateParse dropdownSample emptyVersionDom =
        updateDownloadLink dropdownSample (getVersionKey latest)
          { emptyVersionDom with
            dropdown := emptyVersionDom.dropdown ++
              (orderedVersions isoDateParse dropdownSample).map
                (fun v => createVersionOption v (getVersionKey v == getVersionKey latest)) } :=
  ⟨by decide, by decide, by decide, by decide,
   populateVersions_order isoDateParse dropdownSample emptyVersionDom (by decide) (by decide)⟩

/-! ## History tab -/

/-- Claim C8: on the first activation, with a loaded non-empty event list whose dates all
parse, the timeline holds one card per event, the cards follow a permutation of the
events in non-decreasing date order, and the stored event list is left as loaded. -/
theorem renderTimeline_ascending (parse : JSString → Option Int)
    (formatDate : Option Int → JSString) (fetched : Option HistoryJson)
    (page : HistoryPage) (events : List HistoryEvent)
    (hfresh : page.timelineRendered = false)
    (hloaded : (loadHistoryEvents fetched page).2 = true)
    (hevents : (loadHistoryEvents fetched page).1.historyEvents = events)
    (hne : events ≠ [])
    (hparse : ∀ e ∈ events, ∃ t, parse e.date = some t) :
    ∃ sorted,
      (renderTimeline parse formatDate fetched page).timeline =
        .cards (timelineCards parse formatDate sorted 0) ∧
      (timelineCards parse formatDate sorted 0).map (fun c => (c.dateText, c.title, c.desc)) =
        sorted.map (fun e => (formatDate (parse e.date), e.title, e.description)) ∧
      sorted.Perm events ∧
      (sorted.Pairwise fun a b =>
        ∃ ta tb, parse a.date = some ta ∧ parse b.date = some tb ∧ ta ≤ tb) ∧
      (renderTimeline parse formatDate fetched page).historyEvents = events := by
  have hlen : events.length ≠ 0 := fun h => hne (List.length_eq_zero.1 h)
  have hr : renderTimeline parse formatDate fetched page =
      { renderThanksList { (loadHistoryEvents fetched page).1 with timeline := .cards [] } with
        timeline := .cards (timelineCards parse formatDate (sortedEvents parse events) 0)
        timelineRendered := true } := by
    unfold renderTimeline
    rw [if_neg (by simp [hfresh])]
    simp only [loadHistoryEvents_timeline, hloaded, renderThanksList_historyEvents, hevents,
      Bool.not_true, Bool.false_or, decide_eq_true_eq, hlen, if_false]
  refine ⟨sortedEvents parse events, ?_, timelineCards_texts _ _ _ _, jsSort_perm _ _,
    sortedEvents_pairwise parse events hparse, ?_⟩
  · rw [hr]
  · rw [hr]
    simp only [renderThanksList_historyEvents, hevents]

/-- Claim C8, at the events dated 2023-05-01 and 2021-01-01: the 2021 card comes first. -/
theorem renderTimeline_ascending_witness :
    (renderTimeline isoDateParse daysFormat (some (.array twoEvents)) freshHistoryPage).timeline =
      .cards [
        { index := 0, dotClass := utf16 "tl-dot tl-cat-start", dateText := [18628],
          title := utf16 "First", desc := utf16 "earlier" },
        { index := 1, dotClass := utf16 "tl-dot tl-cat-release", dateText := [19478],
          title := utf16 "Second", desc := utf16 "later" }] ∧
    ∃ sorted,
      (renderTimeline isoDateParse daysFormat (some (.array twoEvents))
        freshHistoryPage).timeline = .cards (timelineCards isoDateParse daysFormat sorted 0) ∧
      (timelineCards isoDateParse daysFormat sorted 0).map
          (fun c => (c.dateText, c.title, c.desc)) =
        sorted.map (fun e => (daysFormat (isoDateParse e.date), e.title, e.description)) ∧
      sorted.Perm twoEvents ∧
      (sorted.Pairwise fun a b =>
        ∃ ta tb, isoDateParse a.date = some ta ∧ isoDateParse b.date = some tb ∧ ta ≤ tb) ∧
      (renderTimeline isoDateParse daysFormat (some (.array twoEvents))
        freshHistoryPage).historyEvents = twoEvents :=
  ⟨by decide,
   renderTimeline_ascending isoDateParse daysFormat (some (.array twoEvents)) freshHistoryPage
    twoEvents rfl rfl rfl (by decide) (by
      intro e he
      simp only [twoEvents, List.mem_cons, List.mem_singleton, List.not_mem_nil, or_false] at he
      rcases he with rfl | rfl
      · exact ⟨1682899200000, by decide⟩
      · exact ⟨1609459200000, by decide⟩)⟩

/-- Claim C9: for a non-empty thanks list the items are those of a permutation of the
entries in non-increasing length of their full text; the full text of an entry is its
name (`Unknown` when absent or empty), then ` [trusted]` when it is trusted, then ` - `
and the contribution when one is given (present and not empty); and the text of each
item is that full text. -/
theorem renderThanksList_longest_first (page : HistoryPage)
    (hne : page.historyThanks ≠ []) :
    ∃ entries : List ThanksEntry,
      (renderThanksList page).thanksItems = entries.map (fun e => thanksItem (thanksRow e)) ∧
      entries.Perm page.historyThanks ∧
      (entries.Pairwise fun a b =>
        (thanksRow b).fullText.length ≤ (thanksRow a).fullText.length) ∧
      (∀ e : ThanksEntry, (thanksRow e).fullText =
        orElse e.name (utf16 "Unknown") ++
          (if e.trusted = some true then utf16 " [trusted]" else []) ++
          (if truthy e.contribution then utf16 " - " ++ e.contribution.getD [] else [])) ∧
      (∀ e : ThanksEntry, itemText (thanksItem (thanksRow e)) = (thanksRow e).fullText) := by
  have hlen : page.historyThanks.length ≠ 0 := fun h => hne (List.length_eq_zero.1 h)
  have hmap : sortedThanks page.historyThanks =
      (jsSort (fun (a b : ThanksEntry) => some (((thanksRow b).fullText.length : Int) -
        ((thanksRow a).fullText.length : Int))) page.historyThanks).map thanksRow :=
    jsSort_map _ thanksRow _
  refine ⟨jsSort (fun (a b : ThanksEntry) => some (((thanksRow b).fullText.length : Int) -
    ((thanksRow a).fullText.length : Int))) page.historyThanks, ?_, jsSort_perm _ _, ?_, ?_,
    itemText_thanksItem⟩
  · simp only [renderThanksList, hlen, if_false, hmap, List.map_map]
    rfl
  · have h := jsSort_pairwise
      (fun (a b : ThanksEntry) => some (((thanksRow b).fullText.length : Int) -
        ((thanksRow a).fullText.length : Int)))
      (fun e => - ((thanksRow e).fullText.length : Int)) page.historyThanks (by
        intro x _ y _
        simp only [cmpLE]
        apply decide_eq_decide.2
        omega)
    refine h.imp ?_
    intro a b hab
    simp only at hab
    omega
  · intro e
    cases hn : e.trusted with
    | none =>
      cases hc : e.contribution with
      | none => simp [thanksRow, hn, hc, orElse, truthy]
      | some c => cases c <;> simp [thanksRow, hn, hc, orElse, truthy]
    | some b =>
      cases b <;> cases hc : e.contribution with
      | none => simp [thanksRow, hn, hc, orElse, truthy]
      | some c => cases c <;> simp [thanksRow, hn, hc, orElse, truthy]

/-- Claim C9, at three entries whose full texts have 3, 20 and 11 code units. -/
theorem renderThanksList_longest_first_witness :
    (renderThanksList { freshHistoryPage with historyThanks := threeThanks }).thanksItems.map
        itemText =
      [utf16 "Bob [trusted] - maps", utf16 "Unknown - x", utf16 "Ann"] ∧
    ∃ entries : List ThanksEntry,
      (renderThanksList { freshHistoryPage with historyThanks := threeThanks }).thanksItems =
        entries.map (fun e => thanksItem (thanksRow e)) ∧
      entries.Perm threeThanks ∧
      (entries.Pairwise fun a b =>
        (thanksRow b).fullText.length ≤ (thanksRow a).fullText.length) ∧
      (∀ e : ThanksEntry, (thanksRow e).fullText =
        orElse e.name (utf16 "Unknown") ++
          (if e.trusted = some true then utf16 " [trusted]" else []) ++
          (if truthy e.contribution then utf16 " - " ++ e.contribution.getD [] else [])) ∧
      (∀ e : ThanksEntry, itemText (thanksItem (thanksRow e)) = (thanksRow e).fullText) :=
  ⟨by decide,
   renderThanksList_longest_first { freshHistoryPage with historyThanks := threeThanks }
    (by decide)⟩

/-! ## Every version once -/

theorem mem_orderedVersions (parse : JSString → Option Int) (versions : List Version)
    (hne : versions ≠ []) (hkeys : (versions.map getVersionKey).Nodup) :
    ∀ v ∈ versions, v ∈ orderedVersions parse versions := by
  obtain ⟨latest, hl, hmem⟩ := getLatestVersion_mem parse versions hne
  intro v hv
  simp only [orderedVersions, hl, Option.toList, List.mem_append, List.mem_filter,
    List.mem_singleton, mem_jsSort]
  by_cases hd : truthy v.date = true
  · by_cases hk : getVersionKey v = getVersionKey latest
    · exact Or.inl (Or.inl (Or.inl (List.inj_on_of_nodup_map hkeys hv hmem hk)))
    · exact Or.inl (Or.inr ⟨⟨hv, hd⟩, by simpa using hk⟩)
  · by_cases hp : v.id = some (utf16 "seed-pre-render")
    · exact Or.inl (Or.inl (Or.inr ⟨hv, by simpa using hp⟩))
    · exact Or.inr ⟨hv, by simp [hd, hp]⟩

/-- Claim C13 fails on the code: a list of one undated version has distinct non-empty
keys and gets two options, both for that version; and next to a later dated version a
pinned entry with a date is appended twice.  Neither sequence is a permutation of the
list. -/
theorem populateVersions_lists_twice :
    ([beta].map getVersionKey).Nodup ∧ (∀ v ∈ [beta], getVersionKey v ≠ []) ∧
    orderedVersions isoDateParse [beta] = [beta, beta] ∧
    (populateVersions isoDateParse [beta] emptyVersionDom).dropdown =
      [{ value := utf16 "beta", textContent := utf16 "beta - Latest" },
       { value := utf16 "beta", textContent := utf16 "beta - Latest" }] ∧
    ¬ (orderedVersions isoDateParse [beta]).Perm [beta] ∧
    ([v2024, pinnedDated].map getVersionKey).Nodup ∧
    (∀ v ∈ [v2024, pinnedDated], getVersionKey v ≠ []) ∧
    orderedVersions isoDateParse [v2024, pinnedDated] = [v2024, pinnedDated, pinnedDated] ∧
    ¬ (orderedVersions isoDateParse [v2024, pinnedDated]).Perm [v2024, pinnedDated] := by
  refine ⟨by decide, by decide, by decide, by decide, ?_, by decide, by decide, by decide, ?_⟩
  · intro h
    have := h.length_eq
    revert this
    decide
  · intro h
    have := h.length_eq
    revert this
    decide

/-! ## Lemmas on the sign lookup -/

theorem assocGet_foldl_assocSet {κ β : Type} [DecidableEq κ] (ws : List (κ × β)) (k : κ) :
    assocGet (ws.foldl (fun m w => assocSet m w.1 w.2) []) k =
      ((ws.filter fun w => decide (w.1 = k)).getLast?).map Prod.snd := by
  induction ws using List.reverseRecOn with
  | nil => simp [assocGet]
  | append_singleton l w ih =>
    rw [List.foldl_append, List.filter_append]
    simp only [List.foldl_cons, List.foldl_nil]
    by_cases hk : w.1 = k
    · subst hk
      rw [assocGet_assocSet_self]
      simp [List.filter_cons]
    · rw [assocGet_assocSet_ne _ _ _ _ hk, ih]
      simp [List.filter_cons, hk]

theorem flatMap_eq_of_unique {α β : Type} (l : List α) (F : α → List β) (r0 : α)
    (hnd : l.Nodup) (hr0 : r0 ∈ l) (hF : ∀ r ∈ l, r ≠ r0 → F r = []) :
    l.flatMap F = F r0 := by
  induction l with
  | nil => simp at hr0
  | cons a t ih =>
    rw [List.nodup_cons] at hnd
    rw [List.flatMap_cons]
    by_cases ha : a = r0
    · subst ha
      have ht : t.flatMap F = [] := by
        apply List.flatMap_eq_nil_iff.2
        intro x hx
        apply hF x (List.mem_cons_of_mem _ hx)
        intro e
        exact hnd.1 (e ▸ hx)
      simp [ht]
    · have hr : r0 ∈ t := by
        rcases List.mem_cons.1 hr0 with h | h
        · exact absurd h.symm ha
        · exact h
      rw [hF a (by simp) ha, List.nil_append]
      exact ih hnd.2 hr fun r hr1 hne => hF r (List.mem_cons_of_mem _ hr1) hne

theorem objectKeys_nodup (signs : List Sign) :
    (objectKeys (scanSigns signs).rowGroups).Nodup :=
  (objectKeys_perm _).nodup_iff.2 (scanSigns_nodup signs)

theorem mem_objectKeys (signs : List Sign) (r : Int) :
    r ∈ objectKeys (scanSigns signs).rowGroups ↔ ∃ s ∈ signs, s.row.getD 0 = r :=
  (objectKeys_perm _).mem_iff.trans (mem_scanSigns_keys signs r)

theorem wallSignWrites_eq (signs : List Sign) :
    wallSignWrites signs =
      (objectKeys (scanSigns signs).rowGroups).flatMap fun r =>
        (signs.filter fun s => decide (s.row.getD 0 = r)).map fun s => (signKey signs s, s) := by
  unfold wallSignWrites objectKeys
  rw [List.flatMap_map]
  apply List.flatMap_congr
  intro entry hentry
  have hget := (assocGet_eq_some_iff _ entry.1 entry.2 (scanSigns_nodup signs)).2
    ((objectEntries_perm _).mem_iff.1 hentry)
  rw [scanSigns_get] at hget
  split at hget
  · simp at hget
  · rw [← Option.some.inj hget]
    apply List.map_congr_left
    intro s hs
    have hrow : s.row.getD 0 = entry.1 := by simpa using (List.mem_filter.1 hs).2
    simp [signKey, hrow]

theorem signKey_row (signs : List Sign) (s t : Sign) (hs : s ∈ signs) (ht : t ∈ signs)
    (h : signKey signs s = signKey signs t) : s.row.getD 0 = t.row.getD 0 :=
  wallRow_injective signs _ _ ((mem_usedRows signs _).2 ⟨s, hs, rfl⟩)
    ((mem_usedRows signs _).2 ⟨t, ht, rfl⟩) (congrArg Prod.snd h)

theorem wallSignWrites_filter (signs : List Sign) (k : CellKey) :
    ((wallSignWrites signs).filter fun w => decide (w.1 = k)).map Prod.snd =
      signs.filter fun s => decide (signKey signs s = k) := by
  have hstep : ((wallSignWrites signs).filter fun w => decide (w.1 = k)).map Prod.snd =
      (objectKeys (scanSigns signs).rowGroups).flatMap fun r =>
        signs.filter fun s => decide (signKey signs s = k) && decide (s.row.getD 0 = r) := by
    rw [wallSignWrites_eq, List.filter_flatMap, List.map_flatMap]
    apply List.flatMap_congr
    intro r _
    rw [List.filter_map, List.map_map, List.filter_filter]
    have hid : (Prod.snd ∘ fun s => (signKey signs s, s)) = (id : Sign → Sign) := rfl
    rw [hid, List.map_id]
    rfl
  rw [hstep]
  by_cases hE : signs.filter (fun s => decide (signKey signs s = k)) = []
  · rw [hE]
    apply List.flatMap_eq_nil_iff.2
    intro r _
    apply List.filter_eq_nil_iff.2
    intro s hs hp
    have hk : signKey signs s = k := by
      simp only [Bool.and_eq_true, decide_eq_true_eq] at hp
      exact hp.1
    have : s ∈ signs.filter (fun s => decide (signKey signs s = k)) :=
      List.mem_filter.2 ⟨hs, by simpa using hk⟩
    rw [hE] at this
    simp at this
  · obtain ⟨s0, hs0⟩ := List.exists_mem_of_ne_nil _ hE
    obtain ⟨hs0m, hs0k⟩ := List.mem_filter.1 hs0
    have hk0 : signKey signs s0 = k := by simpa using hs0k
    rw [flatMap_eq_of_unique _ _ (s0.row.getD 0) (objectKeys_nodup signs)
      ((mem_objectKeys signs _).2 ⟨s0, hs0m, rfl⟩)]
    · apply List.filter_congr
      intro s hs
      by_cases hk : signKey signs s = k
      · have := signKey_row signs s s0 hs hs0m (hk.trans hk0.symm)
        simp [hk, this]
      · simp [hk]
    · intro r _ hne
      apply List.filter_eq_nil_iff.2
      intro s hs hp
      simp only [Bool.and_eq_true, decide_eq_true_eq] at hp
      exact hne (hp.2.symm.trans (signKey_row signs s s0 hs hs0m (hp.1.trans hk0.symm)))

theorem wallSignMap_get (signs : List Sign) (k : CellKey) :
    assocGet (wallSignMap signs) k =
      (signs.filter fun s => decide (signKey signs s = k)).getLast? := by
  unfold wallSignMap
  rw [assocGet_foldl_assocSet, ← List.getLast?_map, wallSignWrites_filter]

theorem mem_emitCells (rowCount cols : Nat) (m : Assoc CellKey Sign) (cell : Cell) :
    cell ∈ emitCells rowCount cols m ↔
      cell.col < cols ∧ cell.row < rowCount ∧
        cell.sign = assocGet m (cellKey cell.col cell.row) := by
  simp only [emitCells, List.mem_flatMap, List.mem_map, List.mem_range]
  constructor
  · rintro ⟨r, hr, c, hc, rfl⟩
    exact ⟨hc, hr, rfl⟩
  · rintro ⟨hc, hr, hs⟩
    refine ⟨cell.row, hr, cell.col, hc, ?_⟩
    cases cell
    simp only at hs
    simp [hs]

theorem filter_getLast?_eq_some_iff {α : Type} (p : α → Bool) (l : List α) (s : α) :
    (l.filter p).getLast? = some s ↔
      ∃ before after, l = before ++ s :: after ∧ p s = true ∧ ∀ t ∈ after, p t = false := by
  constructor
  · induction l using List.reverseRecOn with
    | nil => simp
    | append_singleton l a ih =>
      intro h
      rw [List.filter_append] at h
      by_cases hp : p a = true
      · have e : (l.filter p ++ [a].filter p).getLast? = some a := by
          simp [List.filter_cons, hp]
        rw [e] at h
        cases h
        exact ⟨l, [], rfl, hp, by simp⟩
      · have e : [a].filter p = [] := by simp [List.filter_cons, hp]
        rw [e, List.append_nil] at h
        obtain ⟨before, after, hl, hs, hafter⟩ := ih h
        refine ⟨before, after ++ [a], by simp [hl], hs, ?_⟩
        intro t ht
        rcases List.mem_append.1 ht with ht | ht
        · exact hafter t ht
        · simp only [List.mem_singleton] at ht
          subst ht
          simpa using hp
  · rintro ⟨before, after, rfl, hs, hafter⟩
    have e : after.filter p = [] := by
      apply List.filter_eq_nil_iff.2
      intro t ht
      simp [hafter t ht]
    rw [List.filter_append, List.filter_cons, if_pos hs, e]
    exact List.getLast?_concat _

/-! ## Lemmas on double arithmetic -/

theorem toDouble_of_le (n : Int) (h : n.natAbs ≤ 2 ^ 53) : toDouble n = .fin n := by
  unfold toDouble
  rw [if_pos h]

theorem spacingExp_spec (m fuel k : Nat) (h : 2 ^ (52 + k) ≤ m) :
    2 ^ (52 + spacingExp m fuel k) ≤ m ∧ k ≤ spacingExp m fuel k := by
  induction fuel generalizing k with
  | zero => exact ⟨h, le_refl _⟩
  | succ f ih =>
    unfold spacingExp
    split
    · exact ⟨h, le_refl _⟩
    · rename_i hlt
      have h2 : 2 ^ (52 + (k + 1)) ≤ m := by
        have e : 52 + (k + 1) = 53 + k := by omega
        rw [e]
        exact Nat.le_of_not_lt hlt
      obtain ⟨a, b⟩ := ih (k + 1) h2
      exact ⟨a, by omega⟩

theorem roundMagnitude_ge (m : Nat) (h : 2 ^ 53 < m) : 2 ^ 53 ≤ roundMagnitude m := by
  obtain ⟨hk1, hk2⟩ := spacingExp_spec m 971 1 (le_of_lt h)
  unfold roundMagnitude
  simp only
  generalize spacingExp m 971 1 = k at hk1 hk2
  have hpos : 0 < 2 ^ k := Nat.two_pow_pos k
  have hq : 2 ^ 52 ≤ m / 2 ^ k := by
    apply (Nat.le_div_iff_mul_le hpos).2
    rw [← pow_add]
    exact hk1
  have h2k : 2 ≤ 2 ^ k := by
    have := Nat.pow_le_pow_right (show 0 < 2 by decide) hk2
    simpa using this
  have hq2 : 2 ^ 52 ≤ (if (decide (2 ^ k < 2 * (m % 2 ^ k)) ||
      (decide (2 * (m % 2 ^ k) = 2 ^ k) && decide (m / 2 ^ k % 2 = 1))) = true
      then m / 2 ^ k + 1 else m / 2 ^ k) := by
    split
    · omega
    · exact hq
  calc 2 ^ 53 = 2 ^ 52 * 2 := by norm_num
    _ ≤ _ := Nat.mul_le_mul hq2 h2k

theorem toDouble_large (n c : Int) (h : 2 ^ 53 < n.natAbs) (hc : toDouble n = .fin c) :
    2 ^ 53 ≤ c.natAbs := by
  have hv := roundMagnitude_ge n.natAbs h
  unfold toDouble at hc
  rw [if_neg (by omega)] at hc
  by_cases hover : 2 ^ 256 * 2 ^ 256 * 2 ^ 256 * 2 ^ 256 ≤ roundMagnitude n.natAbs
  · rw [if_pos hover] at hc
    by_cases hneg : n < 0
    · rw [if_pos hneg] at hc
      cases hc
    · rw [if_neg hneg] at hc
      cases hc
  · rw [if_neg hover] at hc
    have e := Num.fin.inj hc
    rw [← e]
    by_cases hneg : n < 0
    · rw [if_pos hneg, Int.natAbs_neg, Int.natAbs_ofNat]
      exact hv
    · rw [if_neg hneg, Int.natAbs_ofNat]
      exact hv

theorem toDouble_eq_of_small (x c : Int) (hc : toDouble x = .fin c) (hsmall : c.natAbs < 2 ^ 53) :
    x = c := by
  by_cases h : x.natAbs ≤ 2 ^ 53
  · rw [toDouble_of_le x h] at hc
    exact Num.fin.inj hc
  · have := toDouble_large x c (by omega) hc
    omega

theorem span_exact (lo hi : Int) (h0 : lo ≤ hi) (h : hi - lo < 2 ^ 53) :
    numAdd (numSub (.fin hi) (.fin lo)) (.fin 1) = .fin (hi - lo + 1) := by
  have e1 : numSub (.fin hi) (.fin lo) = .fin (hi - lo) := by
    simp only [numSub]
    exact toDouble_of_le _ (by omega)
  rw [e1]
  simp only [numAdd]
  exact toDouble_of_le _ (by omega)

theorem renderSignWall_of_cols (signs : List Sign) (hne : signs ≠ []) (n : Int)
    (hcols : COLS signs = .fin n) (hn : n ≤ 2 ^ 53) :
    renderSignWall signs = some
      (emitCells (usedRows signs).length n.toNat (wallSignMap signs)) := by
  have hpos := usedRows_length_pos signs hne
  have hlen : signs.length ≠ 0 := fun h => hne (List.length_eq_zero.1 h)
  have hrows : (usedRows signs).length ≠ 0 := by omega
  simp only [renderSignWall, hlen, hrows, if_false, hcols, loopCount, hn, if_true,
    Option.map_some']

/-! ## Lemmas on the emission loops -/

theorem emitRun_sign (rowCount : Nat) (cols : Num) (m : Assoc CellKey Sign) (fuel row col : Nat) :
    ∀ cell ∈ emitRun rowCount cols m fuel row col,
      cell.sign = assocGet m (cellKey cell.col cell.row) := by
  induction fuel generalizing row col with
  | zero => intro cell h; simp [emitRun] at h
  | succ f ih =>
    intro cell h
    unfold emitRun at h
    split at h
    · split at h
      · rcases List.mem_cons.1 h with h | h
        · subst h; rfl
        · exact ih _ _ cell h
      · exact ih _ _ cell h
    · simp at h

theorem colSucc_of_lt (col : Nat) (h : col < 2 ^ 53) : colSucc col = col + 1 := by
  have e : toDouble ((col : Int) + 1) = .fin ((col : Int) + 1) :=
    toDouble_of_le _ (by omega)
  simp only [colSucc, numAdd, e]
  omega

theorem colSucc_top : colSucc (2 ^ 53) = 2 ^ 53 := by
  decide

theorem colSucc_le (col : Nat) (h : col ≤ 2 ^ 53) : colSucc col ≤ 2 ^ 53 := by
  by_cases hlt : col < 2 ^ 53
  · rw [colSucc_of_lt col hlt]
    omega
  · have e : col = 2 ^ 53 := by omega
    rw [e, colSucc_top]

theorem emitRun_row (rowCount : Nat) (n : Int) (m : Assoc CellKey Sign) (hn : n ≤ 2 ^ 53)
    (row : Nat) (hrow : row < rowCount) (k : Nat) :
    ∀ (col fuel : Nat), ((col + k : Nat) : Int) = max n 0 →
      emitRun rowCount (.fin n) m (fuel + k + 1) row col =
        (List.range' col k).map (fun c =>
          ({ col := c, row := row, sign := assocGet m (cellKey c row) } : Cell)) ++
          emitRun rowCount (.fin n) m fuel (row + 1) 0 := by
  induction k with
  | zero =>
    intro col fuel hcol
    have hlt : ¬ ((col : Int) < n) := by omega
    simp [emitRun, hrow, numLt, hlt]
  | succ k ih =>
    intro col fuel hcol
    have hlt : (col : Int) < n := by omega
    have hsucc : colSucc col = col + 1 := colSucc_of_lt col (by omega)
    have e : fuel + (k + 1) + 1 = (fuel + k + 1) + 1 := by omega
    rw [e]
    conv => lhs; unfold emitRun
    simp only [hrow, if_true, numLt, hlt, decide_True, hsucc]
    rw [ih (col + 1) fuel (by omega)]
    simp [List.range'_succ]

theorem emitRun_rows (rowCount : Nat) (n : Int) (m : Assoc CellKey Sign) (hn : n ≤ 2 ^ 53)
    (j : Nat) :
    ∀ (row fuel : Nat), row + j = rowCount →
      emitRun rowCount (.fin n) m (fuel + j * (n.toNat + 1) + 1) row 0 =
        (List.range' row j).flatMap fun r =>
          (List.range n.toNat).map fun c =>
            ({ col := c, row := r, sign := assocGet m (cellKey c r) } : Cell) := by
  induction j with
  | zero =>
    intro row fuel hrow
    have : ¬ row < rowCount := by omega
    simp [emitRun, this]
  | succ j ih =>
    intro row fuel hrow
    have e : fuel + (j + 1) * (n.toNat + 1) + 1 =
        (fuel + j * (n.toNat + 1) + 1) + n.toNat + 1 := by
      rw [Nat.succ_mul]
      omega
    rw [e, emitRun_row rowCount n m hn row (by omega) n.toNat 0 _ (by omega),
      ih (row + 1) fuel (by omega)]
    simp [List.range'_succ, List.range_eq_range']

theorem wallCells_ends (signs : List Sign) (hne : signs ≠ []) (n : Int)
    (hcols : COLS signs = .fin n) (hn : n ≤ 2 ^ 53) :
    ∀ fuel, (usedRows signs).length * (n.toNat + 1) + 1 ≤ fuel →
      some (wallCells signs fuel) = renderSignWall signs := by
  intro fuel hfuel
  have hlen : signs.length ≠ 0 := fun h => hne (List.length_eq_zero.1 h)
  rw [renderSignWall_of_cols signs hne n hcols hn]
  simp only [wallCells, hlen, if_false, hcols]
  have e : fuel = (fuel - ((usedRows signs).length * (n.toNat + 1) + 1)) +
      (usedRows signs).length * (n.toNat + 1) + 1 := by omega
  rw [e, emitRun_rows _ n _ hn (usedRows signs).length 0 _ (by omega)]
  simp [emitCells, List.range_eq_range']

theorem emitRun_endless (rowCount : Nat) (cols : Num) (m : Assoc CellKey Sign)
    (hcols : ∀ col : Nat, col ≤ 2 ^ 53 → numLt (.fin (col : Int)) cols = true)
    (row : Nat) (hrow : row < rowCount) (fuel : Nat) :
    ∀ col, col ≤ 2 ^ 53 → (emitRun rowCount cols m fuel row col).length = fuel := by
  induction fuel with
  | zero => intro col _; rfl
  | succ f ih =>
    intro col hcol
    unfold emitRun
    simp only [hrow, if_true, hcols col hcol, List.length_cons]
    rw [ih (colSucc col) (colSucc_le col hcol)]

theorem wallCells_endless (signs : List Sign) (hne : signs ≠ [])
    (hnone : renderSignWall signs = none) :
    ∀ fuel, (wallCells signs fuel).length = fuel := by
  intro fuel
  have hpos := usedRows_length_pos signs hne
  have hlen : signs.length ≠ 0 := fun h => hne (List.length_eq_zero.1 h)
  have hrows : (usedRows signs).length ≠ 0 := by omega
  simp only [renderSignWall, hlen, hrows, if_false, Option.map_eq_none'] at hnone
  simp only [wallCells, hlen, if_false]
  apply emitRun_endless _ _ _ _ 0 hpos fuel 0 (by omega)
  intro col hcol
  cases hc : COLS signs with
  | nan => simp [hc, loopCount] at hnone
  | negInf => simp [hc, loopCount] at hnone
  | posInf => rfl
  | fin n =>
    rw [hc] at hnone
    simp only [loopCount] at hnone
    split at hnone
    · simp at hnone
    · rename_i hgt
      simp only [numLt, decide_eq_true_eq]
      omega

/-! ## Sign wall columns -/

/-- Claim C2 as stated fails: with signs in columns 0 and 2^53 the greatest column is
2^53 and the least is 0, and `COLS` is 2^53, not 2^53 + 1: the sum is rounded to a
double. -/
theorem COLS_rounded_beyond_2_53 :
    farSigns ≠ [] ∧
    (∃ s ∈ farSigns, s.col.getD 0 = 0) ∧ (∀ s ∈ farSigns, 0 ≤ s.col.getD 0) ∧
    (∃ s ∈ farSigns, s.col.getD 0 = 9007199254740992) ∧
    (∀ s ∈ farSigns, s.col.getD 0 ≤ 9007199254740992) ∧
    COLS farSigns = .fin 9007199254740992 ∧
    COLS farSigns ≠ .fin (9007199254740992 - 0 + 1) := by
  decide

/-- Claim C2, amended: on a non-empty list `COLS` is `hi - lo + 1` computed in double
arithmetic, where `lo` is the least and `hi` the greatest column among the signs (an
absent column counting as 0); it is the integer `hi - lo + 1` whenever `hi - lo` is
below 2^53. -/
theorem COLS_bounding_box (signs : List Sign) (hne : signs ≠ []) :
    ∃ lo hi, (∃ s ∈ signs, s.col.getD 0 = lo) ∧ (∀ s ∈ signs, lo ≤ s.col.getD 0) ∧
      (∃ s ∈ signs, s.col.getD 0 = hi) ∧ (∀ s ∈ signs, s.col.getD 0 ≤ hi) ∧
      COLS signs = numAdd (numSub (.fin hi) (.fin lo)) (.fin 1) ∧
      (hi - lo < 2 ^ 53 → COLS signs = .fin (hi - lo + 1)) := by
  obtain ⟨lo, hi, h1, h2, hlo, hhi, hall⟩ := scanSigns_bounds signs hne
  obtain ⟨a, ha, hae⟩ := hlo
  have hlohi : lo ≤ hi := hae ▸ (hall a ha).2
  have hC : COLS signs = numAdd (numSub (.fin hi) (.fin lo)) (.fin 1) := by
    simp only [COLS, h1, h2]
  refine ⟨lo, hi, ⟨a, ha, hae⟩, fun s hs => (hall s hs).1, hhi, fun s hs => (hall s hs).2,
    hC, ?_⟩
  intro hspan
  rw [hC]
  exact span_exact lo hi hlohi hspan

/-- Claim C2, amended, at signs in columns 3, -2, 0 (absent) and 1: six columns. -/
theorem COLS_bounding_box_witness :
    wallSample ≠ [] ∧ COLS wallSample = .fin 6 ∧
    ∃ lo hi, (∃ s ∈ wallSample, s.col.getD 0 = lo) ∧ (∀ s ∈ wallSample, lo ≤ s.col.getD 0) ∧
      (∃ s ∈ wallSample, s.col.getD 0 = hi) ∧ (∀ s ∈ wallSample, s.col.getD 0 ≤ hi) ∧
      COLS wallSample = numAdd (numSub (.fin hi) (.fin lo)) (.fin 1) ∧
      (hi - lo < 2 ^ 53 → COLS wallSample = .fin (hi - lo + 1)) :=
  ⟨by decide, by decide, COLS_bounding_box wallSample (by decide)⟩

/-! ## Signs inside the grid -/

/-- Claim C3 as stated fails: with signs in columns -1 and 2^53 the display column of
the second sign, `2^53 - (-1)` in double arithmetic, is 2^53, and so is `COLS`; the
sign is written under the key of column 2^53, which is the key of none of the cells
the emission visits. -/
theorem sign_outside_grid :
    edgeSigns ≠ [] ∧
    COLS edgeSigns = .fin 9007199254740992 ∧
    ((.fin 9007199254740992, 0), sgn 9007199254740992 0 "far") ∈ wallSignWrites edgeSigns ∧
    ∃ cells, renderSignWall edgeSigns = some cells ∧
      ((.fin 9007199254740992, 0) : CellKey) ∉ cells.map fun cell => cellKey cell.col cell.row := by
  have hcols : COLS edgeSigns = .fin 9007199254740992 := by decide
  refine ⟨by decide, hcols, by decide, _,
    renderSignWall_of_cols edgeSigns (by decide) _ hcols (by norm_num), ?_⟩
  intro hmem
  obtain ⟨cell, hcell, hkey⟩ := List.mem_map.1 hmem
  obtain ⟨hc, _, _⟩ := (mem_emitCells _ _ _ _).1 hcell
  have hcol : ((cell.col : Nat) : Int) = 9007199254740992 := by
    have := congrArg Prod.fst hkey
    exact Num.fin.inj this
  have hc2 : cell.col < 9007199254740992 := by simpa using hc
  omega

/-- Claim C3, amended: on a non-empty list whose columns span less than 2^53 (greatest
minus least) the emission ends, and every sign is written to the lookup under the key of
a cell the emission visits: its display column `col - minCol` is a column `c < COLS`,
its display row a row `r < rowCount`.  No other key is written. -/
theorem signs_inside_grid (signs : List Sign) (hne : signs ≠ [])
    (hspan : ∀ s ∈ signs, ∀ t ∈ signs, s.col.getD 0 - t.col.getD 0 < 2 ^ 53) :
    ∃ (cols : Nat) (cells : List Cell),
      COLS signs = .fin (cols : Int) ∧ renderSignWall signs = some cells ∧
      (∀ s ∈ signs, ∃ c r : Nat, c < cols ∧ r < (usedRows signs).length ∧
        numSub (.fin (s.col.getD 0)) (scanSigns signs).minCol = .fin (c : Int) ∧
        wallRow signs (s.row.getD 0) = (r : Int) ∧
        (cellKey c r, s) ∈ wallSignWrites signs ∧
        cellKey c r ∈ cells.map fun cell => cellKey cell.col cell.row) ∧
      (∀ w ∈ wallSignWrites signs, w.2 ∈ signs ∧
        w.1 ∈ cells.map fun cell => cellKey cell.col cell.row) := by
  obtain ⟨lo, hi, h1, h2, ⟨a, ha, hae⟩, ⟨b, hb, hbe⟩, hall⟩ := scanSigns_bounds signs hne
  have hlohi : lo ≤ hi := hae ▸ (hall a ha).2
  have hsp : hi - lo < 2 ^ 53 := by
    have := hspan b hb a ha
    rw [hbe, hae] at this
    exact this
  have hcols : COLS signs = .fin (((hi - lo + 1).toNat : Nat) : Int) := by
    have e : (((hi - lo + 1).toNat : Nat) : Int) = hi - lo + 1 := by omega
    rw [e]
    simp only [COLS, h1, h2]
    exact span_exact lo hi hlohi hsp
  have hrender := renderSignWall_of_cols signs hne _ hcols (by omega)
  rw [Int.toNat_ofNat] at hrender
  have hplace : ∀ s ∈ signs, ∃ c r : Nat, c < (hi - lo + 1).toNat ∧ r < (usedRows signs).length ∧
      numSub (.fin (s.col.getD 0)) (scanSigns signs).minCol = .fin (c : Int) ∧
      wallRow signs (s.row.getD 0) = (r : Int) := by
    intro s hs
    have hc := hall s hs
    have hr := wallRow_range signs _ ((mem_usedRows signs _).2 ⟨s, hs, rfl⟩)
    refine ⟨(s.col.getD 0 - lo).toNat, (wallRow signs (s.row.getD 0)).toNat, ?_, ?_, ?_, ?_⟩
    · omega
    · omega
    · have e : (((s.col.getD 0 - lo).toNat : Nat) : Int) = s.col.getD 0 - lo := by omega
      rw [e, h1]
      simp only [numSub]
      exact toDouble_of_le _ (by omega)
    · omega
  refine ⟨(hi - lo + 1).toNat, _, hcols, hrender, ?_, ?_⟩
  · intro s hs
    obtain ⟨c, r, hc, hr, hcol, hrow⟩ := hplace s hs
    refine ⟨c, r, hc, hr, hcol, hrow, ?_, mem_emitCells_keys _ _ _ c r hc hr⟩
    have hget := scanSigns_get signs (s.row.getD 0)
    have hsf : s ∈ signs.filter fun t => decide (t.row.getD 0 = s.row.getD 0) :=
      List.mem_filter.2 ⟨hs, by simp⟩
    have hf : signs.filter (fun t => decide (t.row.getD 0 = s.row.getD 0)) ≠ [] :=
      List.ne_nil_of_mem hsf
    simp only [hf, if_false] at hget
    have hentry := (objectEntries_perm _).mem_iff.2
      ((assocGet_eq_some_iff _ _ _ (scanSigns_nodup signs)).1 hget)
    simp only [wallSignWrites, List.mem_flatMap, List.mem_map]
    exact ⟨_, hentry, s, hsf, by simp [cellKey, hcol, hrow]⟩
  · intro w hw
    simp only [wallSignWrites, List.mem_flatMap, List.mem_map] at hw
    obtain ⟨entry, hentry, s, hsg, hw⟩ := hw
    have hget := (assocGet_eq_some_iff _ entry.1 entry.2 (scanSigns_nodup signs)).2
      ((objectEntries_perm _).mem_iff.1 hentry)
    rw [scanSigns_get] at hget
    split at hget
    · simp at hget
    · rw [← Option.some.inj hget] at hsg
      obtain ⟨hs, hrow⟩ := List.mem_filter.1 hsg
      have hrow2 : s.row.getD 0 = entry.1 := by simpa using hrow
      obtain ⟨c, r, hc, hr, hcol, hwr⟩ := hplace s hs
      subst hw
      refine ⟨hs, ?_⟩
      have : (numSub (.fin (s.col.getD 0)) (scanSigns signs).minCol, wallRow signs entry.1) =
          cellKey c r := by
        simp [cellKey, hcol, ← hrow2, hwr]
      simp only [this]
      exact mem_emitCells_keys _ _ _ c r hc hr

/-- Claim C3, amended, at four signs in three raw rows and columns -2 to 3. -/
theorem signs_inside_grid_witness :
    wallSample ≠ [] ∧
    (∀ s ∈ wallSample, ∀ t ∈ wallSample, s.col.getD 0 - t.col.getD 0 < 2 ^ 53) ∧
    (wallSignWrites wallSample).map Prod.fst =
      [cellKey 2 1, cellKey 5 0, cellKey 3 0, cellKey 0 2] ∧
    ∃ (cols : Nat) (cells : List Cell),
      COLS wallSample = .fin (cols : Int) ∧ renderSignWall wallSample = some cells ∧
      (∀ s ∈ wallSample, ∃ c r : Nat, c < cols ∧ r < (usedRows wallSample).length ∧
        numSub (.fin (s.col.getD 0)) (scanSigns wallSample).minCol = .fin (c : Int) ∧
        wallRow wallSample (s.row.getD 0) = (r : Int) ∧
        (cellKey c r, s) ∈ wallSignWrites wallSample ∧
        cellKey c r ∈ cells.map fun cell => cellKey cell.col cell.row) ∧
      (∀ w ∈ wallSignWrites wallSample, w.2 ∈ wallSample ∧
        w.1 ∈ cells.map fun cell => cellKey cell.col cell.row) :=
  ⟨by decide, by decide, by decide, signs_inside_grid wallSample (by decide) (by decide)⟩

/-! ## Sign wall cells -/

/-- With signs in columns 0 and 2^53 + 2 the bound `COLS` is 2^53 + 4, which the counter
of the inner loop never reaches: the emission does not end, and every test of its
condition appends one more cell. -/
theorem renderSignWall_endless_sample :
    COLS endlessSigns = .fin 9007199254740996 ∧ renderSignWall endlessSigns = none ∧
    ∀ fuel, (wallCells endlessSigns fuel).length = fuel :=
  ⟨by decide, by decide, wallCells_endless endlessSigns (by decide) (by decide)⟩

/-- Claim C12: on a non-empty list, every cell the emission appends, however long it has
run, carries a sign exactly when some input sign has the display coordinates of the
cell, `(col - minCol, wall row)` as the script computes them; it carries at most one
sign, the last sign of the input list with these coordinates.  For a cell in a column
below 2^53, as all cells of an emission that ends are, `col - minCol` is the exact
difference.  The grid of an emission that ends is the cells appended by a long enough
run. -/
theorem cell_shows_last_sign (signs : List Sign) (hne : signs ≠ []) :
    ∃ lo : Int, (scanSigns signs).minCol = .fin lo ∧
      (∀ cells, renderSignWall signs = some cells →
        (∃ fuel, wallCells signs fuel = cells) ∧ ∀ cell ∈ cells, cell.col < 2 ^ 53) ∧
      ∀ fuel, ∀ cell ∈ wallCells signs fuel,
        (cell.sign.isSome = true ↔
          ∃ s ∈ signs, signKey signs s = cellKey cell.col cell.row) ∧
        cell.sign =
          (signs.filter fun s =>
            decide (signKey signs s = cellKey cell.col cell.row)).getLast? ∧
        (∀ s, cell.sign = some s ↔
          ∃ before after, signs = before ++ s :: after ∧
            signKey signs s = cellKey cell.col cell.row ∧
            ∀ t ∈ after, signKey signs t ≠ cellKey cell.col cell.row) ∧
        (cell.col < 2 ^ 53 → ∀ s : Sign, signKey signs s = cellKey cell.col cell.row ↔
          (s.col.getD 0 - lo = (cell.col : Int) ∧
            wallRow signs (s.row.getD 0) = (cell.row : Int))) := by
  obtain ⟨lo, hi, hmin, _, _, _, _⟩ := scanSigns_bounds signs hne
  have hlen : signs.length ≠ 0 := fun h => hne (List.length_eq_zero.1 h)
  have hpos := usedRows_length_pos signs hne
  have hrows : (usedRows signs).length ≠ 0 := by omega
  refine ⟨lo, hmin, ?_, ?_⟩
  · intro cells hcells
    have hsome := hcells
    simp only [renderSignWall, hlen, hrows, if_false, Option.map_eq_some'] at hsome
    obtain ⟨cols, hloop, hemit⟩ := hsome
    cases hc : COLS signs with
    | nan =>
      rw [hc] at hloop
      simp only [loopCount, Option.some.injEq] at hloop
      subst hloop
      refine ⟨⟨0, ?_⟩, ?_⟩
      · rw [← hemit]
        simp [wallCells, emitRun, emitCells]
      · intro cell hcell
        rw [← hemit] at hcell
        obtain ⟨h, _, _⟩ := (mem_emitCells _ _ _ _).1 hcell
        omega
    | negInf =>
      rw [hc] at hloop
      simp only [loopCount, Option.some.injEq] at hloop
      subst hloop
      refine ⟨⟨0, ?_⟩, ?_⟩
      · rw [← hemit]
        simp [wallCells, emitRun, emitCells]
      · intro cell hcell
        rw [← hemit] at hcell
        obtain ⟨h, _, _⟩ := (mem_emitCells _ _ _ _).1 hcell
        omega
    | posInf =>
      rw [hc] at hloop
      simp [loopCount] at hloop
    | fin n =>
      rw [hc] at hloop
      simp only [loopCount] at hloop
      split at hloop
      · rename_i hn
        have hcn : cols = n.toNat := (Option.some.inj hloop).symm
        refine ⟨⟨(usedRows signs).length * (n.toNat + 1) + 1, ?_⟩, ?_⟩
        · have := wallCells_ends signs hne n hc hn _ (le_refl _)
          rw [hcells] at this
          exact Option.some.inj this
        · intro cell hcell
          rw [← hemit] at hcell
          obtain ⟨h, _, _⟩ := (mem_emitCells _ _ _ _).1 hcell
          omega
      · simp at hloop
  · intro fuel cell hcell
    simp only [wallCells, hlen, if_false] at hcell
    have hsign := emitRun_sign _ _ _ _ _ _ cell hcell
    rw [wallSignMap_get] at hsign
    refine ⟨?_, hsign, ?_, ?_⟩
    · rw [hsign, List.getLast?_isSome]
      constructor
      · intro h
        obtain ⟨s, hs⟩ := List.exists_mem_of_ne_nil _ h
        obtain ⟨h1, h2⟩ := List.mem_filter.1 hs
        exact ⟨s, h1, by simpa using h2⟩
      · rintro ⟨s, hs, hk⟩
        exact List.ne_nil_of_mem (List.mem_filter.2 ⟨hs, by simpa using hk⟩)
    · intro s
      rw [hsign, filter_getLast?_eq_some_iff]
      constructor
      · rintro ⟨before, after, hl, hs, hafter⟩
        refine ⟨before, after, hl, by simpa using hs, ?_⟩
        intro t ht
        simpa using hafter t ht
      · rintro ⟨before, after, hl, hs, hafter⟩
        refine ⟨before, after, hl, by simpa using hs, ?_⟩
        intro t ht
        simpa using hafter t ht
    · intro hcol s
      simp only [signKey, cellKey, hmin, numSub, Prod.mk.injEq]
      constructor
      · rintro ⟨h1, h2⟩
        exact ⟨toDouble_eq_of_small _ _ h1 (by omega), h2⟩
      · rintro ⟨h1, h2⟩
        refine ⟨?_, h2⟩
        rw [h1]
        exact toDouble_of_le _ (by omega)

/-- Claim C12, at three signs of which the first and the last share a place: the cell of
that place shows the last one, the other sign has its own cell, the rest are bare. -/
theorem cell_shows_last_sign_witness :
    collidingSigns ≠ [] ∧
    renderSignWall collidingSigns = some
      [{ col := 0, row := 0, sign := none },
       { col := 1, row := 0, sign := some (sgn 5 1 "other") },
       { col := 0, row := 1, sign := some (sgn 4 0 "second") },
       { col := 1, row := 1, sign := none }] ∧
    wallCells collidingSigns 3 =
      [{ col := 0, row := 0, sign := none },
       { col := 1, row := 0, sign := some (sgn 5 1 "other") }] ∧
    ∃ lo : Int, (scanSigns collidingSigns).minCol = .fin lo ∧
      (∀ cells, renderSignWall collidingSigns = some cells →
        (∃ fuel, wallCells collidingSigns fuel = cells) ∧ ∀ cell ∈ cells, cell.col < 2 ^ 53) ∧
      ∀ fuel, ∀ cell ∈ wallCells collidingSigns fuel,
        (cell.sign.isSome = true ↔
          ∃ s ∈ collidingSigns, signKey collidingSigns s = cellKey cell.col cell.row) ∧
        cell.sign =
          (collidingSigns.filter fun s =>
            decide (signKey collidingSigns s = cellKey cell.col cell.row)).getLast? ∧
        (∀ s, cell.sign = some s ↔
          ∃ before after, collidingSigns = before ++ s :: after ∧
            signKey collidingSigns s = cellKey cell.col cell.row ∧
            ∀ t ∈ after, signKey collidingSigns t ≠ cellKey cell.col cell.row) ∧
        (cell.col < 2 ^ 53 → ∀ s : Sign,
          signKey collidingSigns s = cellKey cell.col cell.row ↔
            (s.col.getD 0 - lo = (cell.col : Int) ∧
              wallRow collidingSigns (s.row.getD 0) = (cell.row : Int))) :=
  ⟨by decide, by decide, by decide, cell_shows_last_sign collidingSigns (by decide)⟩

/-! ## Lemmas on the tab controller -/

theorem firstIndex_some {α : Type} (pr : α → Bool) (l : List α) (i : Nat)
    (h : firstIndex pr l = some i) : ∃ q, l[i]? = some q ∧ pr q = true := by
  induction l generalizing i with
  | nil => simp [firstIndex] at h
  | cons a t ih =>
    unfold firstIndex at h
    by_cases ha : pr a = true
    · rw [if_pos ha] at h
      cases h
      exact ⟨a, by simp, ha⟩
    · rw [if_neg ha] at h
      cases ht : firstIndex pr t with
      | none => simp [ht] at h
      | some j =>
        simp only [ht, Option.map_some', Option.some.injEq] at h
        subst h
        obtain ⟨q, hq, hp⟩ := ih j ht
        exact ⟨q, by simpa using hq, hp⟩

theorem firstIndex_map {α : Type} (pr : α → Bool) (f : α → α) (l : List α)
    (hf : ∀ a, pr (f a) = pr a) : firstIndex pr (l.map f) = firstIndex pr l := by
  induction l with
  | nil => rfl
  | cons a t ih => simp only [List.map_cons, firstIndex, hf, ih]

theorem firstIndex_modifyAt {α : Type} (pr : α → Bool) (f : α → α) (i : Nat) (l : List α)
    (hf : ∀ a, pr (f a) = pr a) : firstIndex pr (modifyAt f i l) = firstIndex pr l := by
  induction l generalizing i with
  | nil => cases i <;> rfl
  | cons a t ih =>
    cases i with
    | zero => simp only [modifyAt, firstIndex, hf]
    | succ j => simp only [modifyAt, firstIndex, ih]

theorem getElem?_modifyAt {α : Type} (f : α → α) (i j : Nat) (l : List α) :
    (modifyAt f i l)[j]? = if j = i then (l[j]?).map f else l[j]? := by
  induction l generalizing i j with
  | nil => simp [modifyAt]
  | cons a t ih =>
    cases i with
    | zero =>
      cases j with
      | zero => simp [modifyAt]
      | succ k => simp [modifyAt]
    | succ i0 =>
      cases j with
      | zero => simp [modifyAt]
      | succ k => simp [modifyAt, ih]

theorem map_modifyAt_of {α β : Type} (f : α → α) (g : α → β) (i : Nat) (l : List α)
    (h : ∀ q, l[i]? = some q → g (f q) = g q) : (modifyAt f i l).map g = l.map g := by
  induction l generalizing i with
  | nil => cases i <;> rfl
  | cons a t ih =>
    cases i with
    | zero => simp [modifyAt, h a (by simp)]
    | succ j =>
      simp only [modifyAt, List.map_cons]
      rw [ih j (fun q hq => h q (by simpa using hq))]

theorem modifyAt_eq_self {α : Type} (f : α → α) (i : Nat) (l : List α)
    (h : ∀ q, l[i]? = some q → f q = q) : modifyAt f i l = l := by
  have := map_modifyAt_of f id i l h
  simpa using this

theorem mem_classAdd (classes : List JSString) (token x : JSString) :
    x ∈ classAdd classes token ↔ x ∈ classes ∨ x = token := by
  unfold classAdd
  split
  · constructor
    · exact Or.inl
    · rintro (h | h)
      · exact h
      · subst h
        assumption
  · simp

theorem mem_classRemove (classes : List JSString) (token x : JSString) :
    x ∈ classRemove classes token ↔ x ∈ classes ∧ x ≠ token := by
  simp [classRemove]

theorem classAdd_of_mem (classes : List JSString) (token : JSString) (h : token ∈ classes) :
    classAdd classes token = classes := by
  simp [classAdd, h]

theorem classRemove_of_not_mem (classes : List JSString) (token : JSString)
    (h : token ∉ classes) : classRemove classes token = classes := by
  unfold classRemove
  apply List.filter_eq_self.2
  intro a ha
  have : a ≠ token := fun e => h (e ▸ ha)
  simpa using this

theorem classRemove_classAdd (classes : List JSString) (token : JSString) :
    classRemove (classAdd classes token) token = classRemove classes token := by
  unfold classAdd
  split
  · rfl
  · simp [classRemove, List.filter_append]

theorem classRemove_idem (classes : List JSString) (token : JSString) :
    classRemove (classRemove classes token) token = classRemove classes token :=
  classRemove_of_not_mem _ _ fun h => ((mem_classRemove _ _ _).1 h).2 rfl

theorem classAdd_idem (classes : List JSString) (token : JSString) :
    classAdd (classAdd classes token) token = classAdd classes token :=
  classAdd_of_mem _ _ ((mem_classAdd _ _ _).2 (Or.inr rfl))

theorem add_remove_remove_idem (body : List JSString) (x y z : JSString) (hxy : x ≠ y)
    (hxz : x ≠ z) :
    classRemove (classRemove (classAdd (classRemove (classRemove (classAdd body x) y) z) x) y) z
      = classRemove (classRemove (classAdd body x) y) z := by
  have hx : x ∈ classRemove (classRemove (classAdd body x) y) z :=
    (mem_classRemove _ _ _).2 ⟨(mem_classRemove _ _ _).2
      ⟨(mem_classAdd _ _ _).2 (Or.inr rfl), hxy⟩, hxz⟩
  have hy : y ∉ classRemove (classRemove (classAdd body x) y) z := fun h =>
    ((mem_classRemove _ _ _).1 ((mem_classRemove _ _ _).1 h).1).2 rfl
  have hz : z ∉ classRemove (classRemove (classAdd body x) y) z := fun h =>
    ((mem_classRemove _ _ _).1 h).2 rfl
  rw [classAdd_of_mem _ _ hx, classRemove_of_not_mem _ _ hy, classRemove_of_not_mem _ _ hz]

theorem remove_remove_remove_idem (body : List JSString) (x y z : JSString) :
    classRemove (classRemove (classRemove
      (classRemove (classRemove (classRemove body x) y) z) x) y) z
      = classRemove (classRemove (classRemove body x) y) z := by
  have hx : x ∉ classRemove (classRemove (classRemove body x) y) z := fun h =>
    ((mem_classRemove _ _ _).1 ((mem_classRemove _ _ _).1
      ((mem_classRemove _ _ _).1 h).1).1).2 rfl
  have hy : y ∉ classRemove (classRemove (classRemove body x) y) z := fun h =>
    ((mem_classRemove _ _ _).1 ((mem_classRemove _ _ _).1 h).1).2 rfl
  have hz : z ∉ classRemove (classRemove (classRemove body x) y) z := fun h =>
    ((mem_classRemove _ _ _).1 h).2 rfl
  rw [classRemove_of_not_mem _ _ hx, classRemove_of_not_mem _ _ hy,
    classRemove_of_not_mem _ _ hz]

theorem bodyClassesFor_idem (tabName : JSString) (body : List JSString) :
    bodyClassesFor tabName (bodyClassesFor tabName body) = bodyClassesFor tabName body := by
  unfold bodyClassesFor
  by_cases h1 : tabName = utf16 "memories"
  · simp only [h1, if_true]
    exact add_remove_remove_idem _ _ _ _ (by decide) (by decide)
  · by_cases h2 : tabName = utf16 "signwall"
    · simp only [h1, h2, if_true, if_false]
      exact add_remove_remove_idem _ _ _ _ (by decide) (by decide)
    · by_cases h3 : tabName = utf16 "history"
      · simp only [h1, h2, h3, if_true, if_false]
        exact add_remove_remove_idem _ _ _ _ (by decide) (by decide)
      · simp only [h1, h2, h3, if_false]
        exact remove_remove_remove_idem _ _ _ _

theorem switchTab_on_active (tabName : JSString) (page : TabPage) (p b : Nat)
    (hpanel : firstIndex (fun el => el.id == some (utf16 "tab-" ++ tabName)) page.panels
      = some p)
    (hactive : ∀ i q, page.panels[i]? = some q → (utf16 "tab-active" ∈ q.classes ↔ i = p))
    (hbutton : firstIndex (fun el => el.dataTab == some tabName) page.buttons = some b) :
    switchTab tabName page = .returned
      { panels := modifyAt (fun el =>
          { el with display := utf16 "block"
                    classes := classAdd el.classes (utf16 "tab-active") }) p page.panels
        buttons := modifyAt (fun el =>
          { el with classes := classAdd el.classes (utf16 "active") }) b
          (page.buttons.map fun el =>
            { el with classes := classRemove el.classes (utf16 "active") })
        bodyClasses := bodyClassesFor tabName page.bodyClasses
        timers := page.timers } := by
  have hb : firstIndex (fun el => el.dataTab == some tabName)
      (page.buttons.map fun el =>
        { el with classes := classRemove el.classes (utf16 "active") }) = some b := by
    exact (firstIndex_map (fun el => el.dataTab == some tabName)
      (fun el => { el with classes := classRemove el.classes (utf16 "active") })
      page.buttons (fun _ => rfl)).trans hbutton
  have hcur : ∀ c, firstIndex (fun el =>
      decide (utf16 "tab-content" ∈ el.classes) && decide (utf16 "tab-active" ∈ el.classes))
      page.panels = some c → c = p := by
    intro c hc
    obtain ⟨q, hq, hpr⟩ := firstIndex_some _ _ _ hc
    simp only [Bool.and_eq_true, decide_eq_true_eq] at hpr
    exact (hactive c q hq).1 hpr.2
  unfold switchTab
  simp only [hb, hpanel]
  cases hc : firstIndex (fun el =>
      decide (utf16 "tab-content" ∈ el.classes) && decide (utf16 "tab-active" ∈ el.classes))
      page.panels with
  | none => simp [showNext]
  | some c =>
    have := hcur c hc
    subst this
    simp [showNext]

/-! ## Switching to the active tab -/

/-- Claim C11: when the panel of tab `T` is the only panel carrying `tab-active` (and
the page has a button for `T`), `switchTab(T)` returns with the class list of every
panel as it was, so with no `tab-exit` added, and with no callback scheduled; the panel
of `T` is still the only one carrying `tab-active` and its display is `block`; and a
second call leaves the whole page, class lists of panels, buttons and body included, as
the first call left it. -/
theorem switchTab_active_idempotent (tabName : JSString) (page : TabPage) (p b : Nat)
    (hpanel : firstIndex (fun el => el.id == some (utf16 "tab-" ++ tabName)) page.panels
      = some p)
    (hactive : ∀ i q, page.panels[i]? = some q → (utf16 "tab-active" ∈ q.classes ↔ i = p))
    (hbutton : firstIndex (fun el => el.dataTab == some tabName) page.buttons = some b) :
    ∃ page1, switchTab tabName page = .returned page1 ∧
      page1.panels.map (fun el => el.classes) = page.panels.map (fun el => el.classes) ∧
      page1.timers = page.timers ∧
      (∀ i q, page1.panels[i]? = some q → (utf16 "tab-active" ∈ q.classes ↔ i = p)) ∧
      (∃ q, page1.panels[p]? = some q ∧ q.display = utf16 "block") ∧
      switchTab tabName page1 = .returned page1 := by
  have hclasses : ∀ q, page.panels[p]? = some q →
      classAdd q.classes (utf16 "tab-active") = q.classes := fun q hq =>
    classAdd_of_mem _ _ ((hactive p q hq).2 rfl)
  have hactive1 : ∀ i q, (modifyAt (fun el : Panel =>
      { el with display := utf16 "block"
                classes := classAdd el.classes (utf16 "tab-active") }) p page.panels)[i]?
        = some q → (utf16 "tab-active" ∈ q.classes ↔ i = p) := by
    intro i q hq
    rw [getElem?_modifyAt] at hq
    by_cases hi : i = p
    · subst hi
      simp only [if_true] at hq
      cases h0 : page.panels[i]? with
      | none => simp [h0] at hq
      | some q0 =>
        simp only [h0, Option.map_some', Option.some.injEq] at hq
        subst hq
        simp [hclasses q0 h0, (hactive i q0 h0).2 rfl]
    · simp only [hi, if_false] at hq
      exact hactive i q hq
  have hpanel1 : firstIndex (fun el => el.id == some (utf16 "tab-" ++ tabName))
      (modifyAt (fun el : Panel =>
        { el with display := utf16 "block"
                  classes := classAdd el.classes (utf16 "tab-active") }) p page.panels)
        = some p := by
    refine (firstIndex_modifyAt _ _ _ _ ?_).trans hpanel
    intro _
    rfl
  have hbutton1 : firstIndex (fun el => el.dataTab == some tabName)
      (modifyAt (fun el : TabButton =>
        { el with classes := classAdd el.classes (utf16 "active") }) b
        (page.buttons.map fun el =>
          { el with classes := classRemove el.classes (utf16 "active") })) = some b := by
    refine (firstIndex_modifyAt _ _ _ _ ?_).trans
      ((firstIndex_map (fun el => el.dataTab == some tabName)
        (fun el => { el with classes := classRemove el.classes (utf16 "active") })
        page.buttons (fun _ => rfl)).trans hbutton)
    intro _
    rfl
  have hP : modifyAt (fun el : Panel =>
      { el with display := utf16 "block"
                classes := classAdd el.classes (utf16 "tab-active") }) p
      (modifyAt (fun el : Panel =>
        { el with display := utf16 "block"
                  classes := classAdd el.classes (utf16 "tab-active") }) p page.panels) =
      modifyAt (fun el : Panel =>
        { el with display := utf16 "block"
                  classes := classAdd el.classes (utf16 "tab-active") }) p page.panels := by
    apply modifyAt_eq_self
    intro q hq
    rw [getElem?_modifyAt, if_pos rfl] at hq
    cases h0 : page.panels[p]? with
    | none => simp [h0] at hq
    | some q0 =>
      simp only [h0, Option.map_some', Option.some.injEq] at hq
      subst hq
      simp [classAdd_idem]
  have hB : (modifyAt (fun el : TabButton =>
      { el with classes := classAdd el.classes (utf16 "active") }) b
      (page.buttons.map fun el =>
        { el with classes := classRemove el.classes (utf16 "active") })).map
        (fun el => { el with classes := classRemove el.classes (utf16 "active") }) =
      page.buttons.map fun el =>
        { el with classes := classRemove el.classes (utf16 "active") } := by
    rw [map_modifyAt_of _ _ _ _ (fun q _ => by simp [classRemove_classAdd]), List.map_map]
    apply List.map_congr_left
    intro a _
    simp [classRemove_idem]
  refine ⟨_, switchTab_on_active tabName page p b hpanel hactive hbutton, ?_, rfl, hactive1,
    ?_, ?_⟩
  · exact map_modifyAt_of _ _ _ _ hclasses
  · obtain ⟨q0, hq0, _⟩ := firstIndex_some _ _ _ hpanel
    refine ⟨{ q0 with display := utf16 "block"
                      classes := classAdd q0.classes (utf16 "tab-active") }, ?_, rfl⟩
    rw [getElem?_modifyAt, if_pos rfl, hq0]
    rfl
  · rw [switchTab_on_active tabName _ p b hpanel1 hactive1 hbutton1]
    simp only [hP, hB, bodyClassesFor_idem]

/-- Claim C11, at a page where the history tab was left and chosen again before the
delayed transition ran: a further `switchTab('history')` leaves the page as it is, the
old `tab-exit` and the pending callback included, and adds neither. -/
theorem switchTab_active_idempotent_witness :
    switchTab (utf16 "history") historyReshown = .returned historyReshown ∧
    ∃ page1, switchTab (utf16 "history") historyReshown = .returned page1 ∧
      page1.panels.map (fun el => el.classes) =
        historyReshown.panels.map (fun el => el.classes) ∧
      page1.timers = historyReshown.timers ∧
      (∀ i q, page1.panels[i]? = some q → (utf16 "tab-active" ∈ q.classes ↔ i = 2)) ∧
      (∃ q, page1.panels[2]? = some q ∧ q.display = utf16 "block") ∧
      switchTab (utf16 "history") page1 = .returned page1 :=
  ⟨by decide,
   switchTab_active_idempotent (utf16 "history") historyReshown 2 2 (by decide) (by
      intro i q h
      rcases i with _ | _ | _ | i
      · cases h
        decide
      · cases h
        decide
      · cases h
        decide
      · simp [historyReshown] at h) (by decide)⟩

end MainJs
